import Mathlib

/-!
Verification development for the ChainScript repository.

The frontend components are embedded directly from the JavaScript source
(StoryTree.js, CreatePassage.js, PendingBlocks).  The backend blockchain
core (backend/blockchain.py, referenced by SETUP.md but not part of the
available sources) is modelled from the specification where a claim
depends on it; such definitions carry a doc comment starting with
"Modelled from the spec:".
-/

namespace ChainScript

/-! ## JavaScript string semantics

CreatePassage.js line 146:
  `const wordCount = passage.trim().split(/\s+/).filter(word => word.length > 0).length;`
PendingBlocks (src/unnamed/part_000) line 270:
  `{block.passage.split(/\s+/).filter(w => w.length > 0).length} words`
-/

/-- The ECMAScript whitespace class matched by the regular expression
class backslash-s: tab, line feed, vertical tab, form feed, carriage
return, space, no-break space, and the Unicode space separators plus
the line/paragraph separators and the byte order mark. -/
def isJsWs (c : Char) : Bool :=
  c = ' ' || c = '\t' || c = '\n' || c = '\r' ||
  c.val = 11 || c.val = 12 || c.val = 0xa0 || c.val = 0x1680 ||
  (0x2000 ≤ c.val && c.val ≤ 0x200a) ||
  c.val = 0x2028 || c.val = 0x2029 || c.val = 0x202f ||
  c.val = 0x205f || c.val = 0x3000 || c.val = 0xfeff

/-- Pieces produced by the JavaScript `split` with the whitespace-run
regular expression, processing the characters left to right.  `cur` is
the reversed piece currently being accumulated and `inSep` records
whether the previous character belonged to a separator run (a maximal
whitespace run is a single separator, so further whitespace characters
extend it without emitting another piece). -/
def wsSplitAux : List Char → Bool → List Char → List (List Char)
  | cur, _, [] => [cur.reverse]
  | cur, inSep, c :: cs =>
    if isJsWs c then
      if inSep then wsSplitAux cur true cs
      else cur.reverse :: wsSplitAux [] true cs
    else wsSplitAux (c :: cur) false cs

/-- JavaScript `s.split(/\s+/)`: the list of pieces between maximal
whitespace runs, including the empty leading piece produced by a
leading separator and the empty trailing piece produced by a trailing
separator. -/
def jsSplitWs (s : String) : List String :=
  (wsSplitAux [] false s.data).map (fun l => String.mk l)

/-- JavaScript `s.trim()`: remove leading and trailing whitespace. -/
def jsTrim (s : String) : String :=
  String.mk (((s.data.dropWhile isJsWs).reverse.dropWhile isJsWs).reverse)

/-- CreatePassage.js line 146: word count of the passage being
submitted, computed as `passage.trim().split(/\s+/)` filtered to
non-empty tokens. -/
def wordCount (passage : String) : Nat :=
  ((jsSplitWs (jsTrim passage)).filter (fun word => 0 < word.length)).length

/-- CreatePassage.js line 147:
`const isValidLength = wordCount >= 250 && wordCount <= 500;`. -/
def isValidLength (passage : String) : Bool :=
  250 ≤ wordCount passage && wordCount passage ≤ 500

/-- PendingBlocks word-count badge (src/unnamed/part_000 line 270):
`block.passage.split(/\s+/).filter(w => w.length > 0).length`, with no
call to `trim()` before splitting. -/
def badgeWordCount (passage : String) : Nat :=
  ((jsSplitWs passage).filter (fun w => 0 < w.length)).length

/-- Canonical token counter: the number of maximal non-whitespace runs
of a character list.  The flag records whether the previous character
was part of a word. -/
def runCountAux : Bool → List Char → Nat
  | _, [] => 0
  | inWord, c :: cs =>
    if isJsWs c then runCountAux false cs
    else (if inWord then 0 else 1) + runCountAux true cs

def runCount (l : List Char) : Nat := runCountAux false l

/-- Characters of a witness passage: n copies of a one-letter word
separated by single spaces. -/
def mkWordsChars : Nat → List Char
  | 0 => []
  | 1 => ['w']
  | n + 2 => 'w' :: ' ' :: mkWordsChars (n + 1)

/-- Generator for witness passages: n copies of a word separated by
single spaces. -/
def mkWords (n : Nat) : String :=
  String.mk (mkWordsChars n)

/-! ### Lemmas on the split semantics -/

theorem length_mk (l : List Char) : (String.mk l).length = l.length := rfl

/-- Number of non-empty pieces in a piece list. -/
def countNE : List (List Char) → Nat
  | [] => 0
  | p :: ps => (if p = [] then 0 else 1) + countNE ps

theorem countNE_cons (p : List Char) (ps : List (List Char)) :
    countNE (p :: ps) = (if p = [] then 0 else 1) + countNE ps := rfl

/-- The filtered length used by the source equals `countNE` on the
underlying character lists. -/
theorem filter_map_mk_eq_countNE (ps : List (List Char)) :
    ((ps.map (fun l => String.mk l)).filter (fun w => 0 < w.length)).length
      = countNE ps := by
  induction ps with
  | nil => rfl
  | cons p ps ih =>
    simp only [List.map_cons, List.filter_cons]
    cases p with
    | nil => simpa [countNE, length_mk] using ih
    | cons a as =>
      simp only [length_mk, List.length_cons, countNE]
      rw [if_pos (by simp), if_neg (by simp)]
      rw [List.length_cons, ih]
      exact Nat.succ_eq_one_add _

/-- Counting the non-empty pieces of the split equals the canonical
run count, provided the separator flag is only set while the current
piece is empty (the invariant maintained by the splitter). -/
theorem countNE_wsSplitAux (l : List Char) :
    ∀ (cur : List Char) (inSep : Bool), (inSep = true → cur = []) →
      countNE (wsSplitAux cur inSep l) =
        (match cur with
         | [] => runCountAux false l
         | _ :: _ => 1 + runCountAux true l) := by
  induction l with
  | nil =>
    intro cur inSep _
    cases cur with
    | nil => simp [wsSplitAux, runCountAux, countNE]
    | cons a as => simp [wsSplitAux, runCountAux, countNE]
  | cons c cs ih =>
    intro cur inSep hinv
    by_cases hws : isJsWs c = true
    · cases inSep with
      | true =>
        have hcur : cur = [] := hinv rfl
        subst hcur
        have e0 : wsSplitAux [] true (c :: cs) = wsSplitAux [] true cs := by
          simp [wsSplitAux, hws]
        rw [e0, ih [] true (fun _ => rfl)]
        simp [runCountAux, hws]
      | false =>
        have e1 : wsSplitAux cur false (c :: cs)
            = cur.reverse :: wsSplitAux [] true cs := by
          simp [wsSplitAux, hws]
        rw [e1]
        cases cur with
        | nil =>
          rw [List.reverse_nil, countNE_cons, if_pos rfl,
            ih [] true (fun _ => rfl)]
          simp [runCountAux, hws]
        | cons a as =>
          rw [countNE_cons, if_neg (by simp), ih [] true (fun _ => rfl)]
          simp [runCountAux, hws]
    · have hws' : isJsWs c = false := by simpa using hws
      have e2 : wsSplitAux cur inSep (c :: cs)
          = wsSplitAux (c :: cur) false cs := by
        cases inSep <;> simp [wsSplitAux, hws']
      rw [e2, ih (c :: cur) false (by intro h; cases h)]
      cases cur with
      | nil => simp [runCountAux, hws']
      | cons a as => simp [runCountAux, hws']

/-- Skipping leading whitespace does not change the run count. -/
theorem runCount_dropWhile (l : List Char) :
    runCountAux false (l.dropWhile isJsWs) = runCountAux false l := by
  induction l with
  | nil => rfl
  | cons c cs ih =>
    by_cases h : isJsWs c = true
    · simp [List.dropWhile, h, runCountAux, ih]
    · have h' : isJsWs c = false := by simpa using h
      simp [List.dropWhile, h', runCountAux]

/-- A list of whitespace characters contains no runs. -/
theorem runCountAux_all_ws (t : List Char) (ht : ∀ c ∈ t, isJsWs c = true) :
    ∀ b, runCountAux b t = 0 := by
  induction t with
  | nil => intro b; rfl
  | cons c cs ih =>
    intro b
    have hc : isJsWs c = true := ht c (List.mem_cons_self c cs)
    simp [runCountAux, hc]
    exact ih (fun x hx => ht x (List.mem_cons_of_mem c hx)) false

/-- Appending trailing whitespace does not change the run count. -/
theorem runCountAux_append_ws (t : List Char) (ht : ∀ c ∈ t, isJsWs c = true)
    (l : List Char) : ∀ b, runCountAux b (l ++ t) = runCountAux b l := by
  induction l with
  | nil => intro b; simpa using runCountAux_all_ws t ht b
  | cons c cs ih =>
    intro b
    by_cases h : isJsWs c = true
    · simp [runCountAux, h, ih]
    · have h' : isJsWs c = false := by simpa using h
      simp [runCountAux, h', ih]

/-- The non-empty-token count of the JavaScript split is the number of
maximal non-whitespace runs. -/
theorem badgeWordCount_eq_runCount (s : String) :
    badgeWordCount s = runCount s.data := by
  unfold badgeWordCount jsSplitWs runCount
  rw [filter_map_mk_eq_countNE]
  simpa using countNE_wsSplitAux s.data [] false (by intro h; cases h)

/-- Removing leading whitespace does not change the run count. -/
theorem runCount_trimmed (l : List Char) :
    runCount (((l.dropWhile isJsWs).reverse.dropWhile isJsWs).reverse)
      = runCount l := by
  have hsplit :
      (l.dropWhile isJsWs) =
        ((l.dropWhile isJsWs).reverse.dropWhile isJsWs).reverse
          ++ ((l.dropWhile isJsWs).reverse.takeWhile isJsWs).reverse := by
    have h := List.takeWhile_append_dropWhile isJsWs (l.dropWhile isJsWs).reverse
    calc l.dropWhile isJsWs
        = (l.dropWhile isJsWs).reverse.reverse := by rw [List.reverse_reverse]
      _ = ((l.dropWhile isJsWs).reverse.takeWhile isJsWs
            ++ (l.dropWhile isJsWs).reverse.dropWhile isJsWs).reverse := by rw [h]
      _ = _ := by rw [List.reverse_append]
  have hws : ∀ c ∈ ((l.dropWhile isJsWs).reverse.takeWhile isJsWs).reverse,
      isJsWs c = true := by
    intro c hc
    exact List.mem_takeWhile_imp (List.mem_reverse.mp hc)
  have h1 : runCount (l.dropWhile isJsWs)
      = runCount (((l.dropWhile isJsWs).reverse.dropWhile isJsWs).reverse) := by
    conv_lhs => rw [hsplit]
    exact runCountAux_append_ws _ hws _ false
  have h2 : runCount (l.dropWhile isJsWs) = runCount l := runCount_dropWhile l
  rw [← h1, h2]

/-- The trimmed word count of CreatePassage.js equals the run count. -/
theorem wordCount_eq_runCount (s : String) :
    wordCount s = runCount s.data := by
  unfold wordCount jsSplitWs jsTrim
  rw [filter_map_mk_eq_countNE]
  have h := countNE_wsSplitAux
    (((s.data.dropWhile isJsWs).reverse.dropWhile isJsWs).reverse)
    [] false (by intro h; cases h)
  simp only [h]
  exact runCount_trimmed s.data

/-! ## The blockchain core

The backend (backend/blockchain.py and backend/main.py, listed in
SETUP.md) is not among the available sources; only its frontend callers
are.  The core operations below are therefore modelled from the
specification (sections 3, 4.2, 4.3, 4.4, 6). -/

/-- Modelled from the spec: the genesis sentinel, "a fixed well-known
constant (e.g. all-zero digest), identical across all root stories". -/
def GENESIS_HASH : String :=
  "0000000000000000000000000000000000000000000000000000000000000000"

/-- Modelled from the spec: the Hasher (section 4.1), a deterministic
content hash over the block fields serialized in a fixed order.  The
spec lists `index` among the hashed fields but also freezes the hash
inputs at creation time, while `index` is undefined until promotion;
the only coherent reading hashes the creation-time field set, so
`index` does not contribute. -/
def hashFields (passage author : String) (timestamp : Nat)
    (previous_hash parent_block_hash : Option String) : String :=
  "#" ++ toString timestamp ++ "|" ++ author ++ "|"
    ++ (match previous_hash with | some h => h | none => "_") ++ "|"
    ++ (match parent_block_hash with | some h => h | none => "_") ++ "|"
    ++ passage

/-- Modelled from the spec: a Block (section 3).  `index` is `none`
while pending and assigned at promotion. -/
structure CBlock where
  passage : String
  author : String
  timestamp : Nat
  previous_hash : Option String
  parent_block_hash : Option String
  hash : String
  index : Option Nat
  verification_count : Nat
  verifier_ids : List String
deriving DecidableEq, Repr, Inhabited

/-- The hash recomputed over the fields of a block. -/
def blockHash (b : CBlock) : String :=
  hashFields b.passage b.author b.timestamp b.previous_hash b.parent_block_hash

/-- Modelled from the spec: a Story (section 3) with its finalized
chain and pending pool. -/
structure CStory where
  id : String
  title : String
  chain : List CBlock
  pending : List CBlock
  parent_story_id : Option String
  parent_block_hash : Option String
deriving DecidableEq, Repr, Inhabited

/-- Modelled from the spec: the error taxonomy (section 7) for the
operations embedded here. -/
inductive CoreError where
  | wordCountError (actual : Nat)
  | blockNotFound
  | alreadyVerified
  | alreadyFinalized
  | staleChain
deriving DecidableEq, Repr

/-- Modelled from the spec: the `previous_hash` a freshly created block
must carry — the hash of the current chain tail, the genesis sentinel
for the first block of a root story, and absent for the first block of
a branch story (section 3, Block.previous_hash). -/
def expectedPrev (s : CStory) : Option String :=
  match s.chain.getLast? with
  | some b => some b.hash
  | none => if s.parent_block_hash.isSome then none else some GENESIS_HASH

/-- Modelled from the spec: `submit_passage` (sections 4.2 and 6).
Validates the word count (the same whitespace-token count the frontend
computes), freezes the fields, computes the hash, and adds a pending
block with zero verifications.  The branch point of a branch story is
carried by its first block.  The timestamp is supplied by the caller
(the core sets it once from its environment). -/
def submit_passage (s : CStory) (passage author : String) (ts : Nat) :
    Except CoreError (CStory × CBlock) :=
  let wc := wordCount passage
  if wc < 250 ∨ 500 < wc then .error (.wordCountError wc)
  else
    let prev := expectedPrev s
    let pbh := if s.chain.isEmpty then s.parent_block_hash else none
    let b : CBlock :=
      { passage := passage, author := author, timestamp := ts,
        previous_hash := prev, parent_block_hash := pbh,
        hash := hashFields passage author ts prev pbh, index := none,
        verification_count := 0, verifier_ids := [] }
    .ok ({ s with pending := s.pending ++ [b] }, b)

/-- Modelled from the spec: `register_verification` (section 4.2), the
successful case — append the verifier and increment the count. -/
def register_verification (b : CBlock) (verifier : String) : CBlock :=
  { b with verifier_ids := b.verifier_ids ++ [verifier],
           verification_count := b.verification_count + 1 }

/-- Modelled from the spec: the promotion step (section 4.3) — assign
`index = len(chain)`, remove the block from the pending pool, and
append it to the chain. -/
def promote (s : CStory) (b2 : CBlock) (blockHashArg : String) : CStory :=
  { s with chain := s.chain ++ [{ b2 with index := some s.chain.length }],
           pending := s.pending.filter (fun x => ¬ x.hash = blockHashArg) }

/-- Modelled from the spec: `verify_block` (sections 4.2, 4.3 and 6).
The pending block is identified by its hash.  A block that is already
in the finalized chain yields `AlreadyFinalizedError`; an unknown hash
yields `BlockNotFoundError`; a repeated verifier yields
`AlreadyVerifiedError`.  Otherwise the verifier is recorded, and when
the count reaches the threshold 2 the block is promoted: the stale
check compares its frozen `previous_hash` with the current tail, the
index is assigned, and the block moves from the pending pool to the
chain.  The returned flag reports whether this call finalized the
block. -/
def verify_block (s : CStory) (blockHashArg verifier : String) :
    Except CoreError (CStory × Bool) :=
  if s.chain.any (fun b => b.hash = blockHashArg) then .error .alreadyFinalized
  else
    match s.pending.find? (fun b => b.hash = blockHashArg) with
    | none => .error .blockNotFound
    | some b =>
      if b.verifier_ids.contains verifier then .error .alreadyVerified
      else
        if 2 ≤ (register_verification b verifier).verification_count then
          if (register_verification b verifier).previous_hash = expectedPrev s
          then .ok (promote s (register_verification b verifier) blockHashArg, true)
          else .error .staleChain
        else
          .ok
            ({ s with
                pending := s.pending.map
                  (fun x => if x.hash = blockHashArg
                            then register_verification b verifier else x) },
              false)

/-- Modelled from the spec: the reasons of `CorruptionError`
(section 4.4). -/
inductive CorruptReason where
  | hashMismatch
  | brokenLink
  | danglingBranchPoint
deriving DecidableEq, Repr

/-- Modelled from the spec: the verdict of `validate_chain`. -/
inductive ValidationResult where
  | ok
  | corrupt (at_index : Nat) (reason : CorruptReason)
deriving DecidableEq, Repr

/-- Walk the chain from position `i`: recompute the hash of every block and
require each successor to link to its predecessor. -/
def validateLinks : Nat → List CBlock → ValidationResult
  | _, [] => .ok
  | i, b :: rest =>
    if b.hash ≠ blockHash b then .corrupt i .hashMismatch
    else
      match rest with
      | [] => .ok
      | b2 :: _ =>
        if b2.previous_hash ≠ some b.hash then .corrupt (i + 1) .brokenLink
        else validateLinks (i + 1) rest

/-- Modelled from the spec: `validate_chain` (section 4.4).  Every
stored hash must equal the hash recomputed over the block fields, every
block after the first must link to its predecessor, and the first block
must carry the genesis sentinel (root story) or no `previous_hash`
together with a branch point (branch story).  Resolution of the branch
point inside the registry is a registry-level check outside this
story-local verdict. -/
def validate_chain (s : CStory) : ValidationResult :=
  match s.chain with
  | [] => .ok
  | b0 :: _ =>
    let rootOk : Prop :=
      if s.parent_block_hash.isSome
      then b0.previous_hash = none ∧ b0.parent_block_hash.isSome
      else b0.previous_hash = some GENESIS_HASH
    if rootOk then validateLinks 0 s.chain else .corrupt 0 .danglingBranchPoint

/-- Stories reachable from creation by successful core operations. -/
inductive Reachable : CStory → Prop where
  | created (id title : String) (psid pbh : Option String) :
      Reachable { id := id, title := title, chain := [], pending := [],
                  parent_story_id := psid, parent_block_hash := pbh }
  | submitted {s s' : CStory} {passage author : String} {ts : Nat} {b : CBlock} :
      Reachable s → submit_passage s passage author ts = .ok (s', b) →
      Reachable s'
  | verified {s s' : CStory} {h v : String} {f : Bool} :
      Reachable s → verify_block s h v = .ok (s', f) → Reachable s'

/-! ## The mining view (src/unnamed/part_000, PendingBlocks) -/

/-- From the source (src/unnamed/part_000): the pending pool is
rendered with `pendingBlocks.map((block, index) => ...)`; each block is
paired with its position in the listing. -/
def renderedPendingButtons (pendingBlocks : List CBlock) : List (Nat × CBlock) :=
  pendingBlocks.enum

/-- From the source (src/unnamed/part_000 lines 212-228 and 274-279):
the mine button of the block rendered at `position` runs
`handleMine(index)` with the map position, and `handleMine` calls
`mineBlock(blockIndex, storyId)`.  The request carries the listing
position and the story id; the block hash appears nowhere in it. -/
def mineRequest (storyId : String) (pendingBlocks : List CBlock)
    (position : Nat) : Nat × String :=
  (position, storyId)

/-- Modelled from the spec: the backend handler behind `mineBlock`
(backend/main.py, POST /api/mine) is not under src/.  The request
transmits only a position and the story id, so the pending block the
handler can act on is the pool entry at that position at request
time. -/
def minedTarget (pool : List CBlock) (req : Nat × String) : Option CBlock :=
  pool.get? req.1

/-! ## Chain validity is preserved by the core operations -/

/-- Pending-pool well-formedness: every pending block carries the hash
of its own frozen fields, and a pending block without a
`previous_hash` (the first block of a branch story) carries a branch
point. -/
def pendingWF (s : CStory) : Prop :=
  ∀ b ∈ s.pending,
    b.hash = blockHash b ∧ (b.previous_hash = none → b.parent_block_hash.isSome)

/-- The state invariant maintained by the core operations. -/
def CoreInv (s : CStory) : Prop :=
  validate_chain s = .ok ∧ pendingWF s

theorem validateLinks_ok_head {i : Nat} {b : CBlock} {rest : List CBlock}
    (h : validateLinks i (b :: rest) = .ok) : b.hash = blockHash b := by
  by_contra hne
  cases rest with
  | nil => simp [validateLinks, hne] at h
  | cons b2 l => simp [validateLinks, hne] at h

theorem validateLinks_ok_link {i : Nat} {b b2 : CBlock} {l : List CBlock}
    (h : validateLinks i (b :: b2 :: l) = .ok) :
    b2.previous_hash = some b.hash ∧ validateLinks (i + 1) (b2 :: l) = .ok := by
  have hb := validateLinks_ok_head h
  have heq : validateLinks i (b :: b2 :: l)
      = if b2.previous_hash ≠ some b.hash
        then ValidationResult.corrupt (i + 1) .brokenLink
        else validateLinks (i + 1) (b2 :: l) := by
    simp only [validateLinks]
    rw [if_neg (not_not_intro hb)]
  rw [heq] at h
  by_cases hlink : b2.previous_hash = some b.hash
  · rw [if_neg (not_not_intro hlink)] at h
    exact ⟨hlink, h⟩
  · rw [if_pos hlink] at h
    cases h

/-- Appending a correctly hashed block that links to the old tail keeps
the link check succeeding. -/
theorem validateLinks_append {fin : CBlock} (hh : fin.hash = blockHash fin) :
    ∀ (l : List CBlock) (i : Nat), validateLinks i l = .ok →
      (∀ last, l.getLast? = some last → fin.previous_hash = some last.hash) →
      validateLinks i (l ++ [fin]) = .ok := by
  intro l
  induction l with
  | nil =>
    intro i _ _
    simp [validateLinks, hh]
  | cons b rest ih =>
    intro i hok hlink
    cases rest with
    | nil =>
      have hb := validateLinks_ok_head hok
      have hfl : fin.previous_hash = some b.hash := by
        apply hlink
        simp [List.getLast?]
      simp [validateLinks, hb, hfl, hh]
    | cons b2 rest2 =>
      have hb := validateLinks_ok_head hok
      obtain ⟨hl2, hrec⟩ := validateLinks_ok_link hok
      have htail : ∀ last, (b2 :: rest2).getLast? = some last →
          fin.previous_hash = some last.hash := by
        intro last hlast
        apply hlink
        simpa [List.getLast?_cons_cons] using hlast
      have := ih (i + 1) hrec htail
      simpa [validateLinks, hb, hl2] using this

/-- `validate_chain` only reads the chain and the story-level branch
point. -/
theorem validate_chain_congr {s1 s2 : CStory} (hc : s1.chain = s2.chain)
    (hp : s1.parent_block_hash = s2.parent_block_hash) :
    validate_chain s1 = validate_chain s2 := by
  unfold validate_chain
  rw [hc, hp]

/-- Appending a well-formed block whose `previous_hash` matches the
current expectation preserves a valid chain. -/
theorem validate_chain_append {s : CStory} {fin : CBlock}
    (hok : validate_chain s = .ok)
    (hh : fin.hash = blockHash fin)
    (hprev : fin.previous_hash = expectedPrev s)
    (hbr : fin.previous_hash = none → fin.parent_block_hash.isSome) :
    validate_chain { s with chain := s.chain ++ [fin] } = .ok := by
  cases hc : s.chain with
  | nil =>
    have hel : expectedPrev s = if s.parent_block_hash.isSome then none
        else some GENESIS_HASH := by
      unfold expectedPrev
      rw [hc]
      rfl
    by_cases hps : s.parent_block_hash.isSome
    · have hpn : fin.previous_hash = none := by rw [hprev, hel, if_pos hps]
      have hbp : fin.parent_block_hash.isSome := hbr hpn
      simp only [validate_chain, hc, List.nil_append]
      rw [if_pos (by rw [if_pos hps]; exact ⟨hpn, hbp⟩)]
      simp [validateLinks, hh]
    · have hpg : fin.previous_hash = some GENESIS_HASH := by
        rw [hprev, hel, if_neg hps]
      simp only [validate_chain, hc, List.nil_append]
      rw [if_pos (by rw [if_neg hps]; exact hpg)]
      simp [validateLinks, hh]
  | cons b0 tl =>
    have hv : validate_chain s = (if (if s.parent_block_hash.isSome
        then b0.previous_hash = none ∧ b0.parent_block_hash.isSome
        else b0.previous_hash = some GENESIS_HASH)
        then validateLinks 0 (b0 :: tl) else .corrupt 0 .danglingBranchPoint) := by
      unfold validate_chain
      rw [hc]
    rw [hv] at hok
    have hv2 : validate_chain { s with chain := (b0 :: tl) ++ [fin] }
        = (if (if s.parent_block_hash.isSome
            then b0.previous_hash = none ∧ b0.parent_block_hash.isSome
            else b0.previous_hash = some GENESIS_HASH)
            then validateLinks 0 (b0 :: (tl ++ [fin]))
            else .corrupt 0 .danglingBranchPoint) := by
      unfold validate_chain
      rfl
    by_cases hro : (if s.parent_block_hash.isSome
        then b0.previous_hash = none ∧ b0.parent_block_hash.isSome
        else b0.previous_hash = some GENESIS_HASH)
    · rw [if_pos hro] at hok
      have hlink : ∀ last, (b0 :: tl).getLast? = some last →
          fin.previous_hash = some last.hash := by
        intro last hlast
        rw [hprev]
        unfold expectedPrev
        rw [hc, hlast]
      have happ := validateLinks_append hh (b0 :: tl) 0 hok hlink
      rw [hv2, if_pos hro]
      exact happ
    · rw [if_neg hro] at hok
      cases hok

theorem coreInv_submit {s s' : CStory} {p a : String} {ts : Nat} {b : CBlock}
    (hInv : CoreInv s) (h : submit_passage s p a ts = .ok (s', b)) :
    CoreInv s' := by
  unfold submit_passage at h
  by_cases hwc : (wordCount p < 250 ∨ 500 < wordCount p)
  · rw [if_pos hwc] at h
    cases h
  · rw [if_neg hwc] at h
    rw [Except.ok.injEq, Prod.mk.injEq] at h
    obtain ⟨h1, h2⟩ := h
    subst h1
    constructor
    · exact (@validate_chain_congr _ s rfl rfl).trans hInv.1
    · intro x hx
      rw [List.mem_append] at hx
      rcases hx with hx | hx
      · exact hInv.2 x hx
      · rw [List.mem_singleton] at hx
        subst hx
        refine ⟨rfl, ?_⟩
        intro hnone
        show (if s.chain.isEmpty then s.parent_block_hash else none).isSome = true
        have hnone' : expectedPrev s = none := hnone
        unfold expectedPrev at hnone'
        cases hgl : s.chain.getLast? with
        | some bl => rw [hgl] at hnone'; cases hnone'
        | none =>
          rw [hgl] at hnone'
          by_cases hps : s.parent_block_hash.isSome = true
          · have hce : s.chain = [] := List.getLast?_eq_none_iff.mp hgl
            rw [hce]
            simpa using hps
          · rw [if_neg hps] at hnone'
            cases hnone'

theorem coreInv_verify {s s' : CStory} {bh v : String} {f : Bool}
    (hInv : CoreInv s) (h : verify_block s bh v = .ok (s', f)) :
    CoreInv s' := by
  unfold verify_block at h
  by_cases hany : s.chain.any (fun x => x.hash = bh) = true
  · rw [if_pos hany] at h
    cases h
  · rw [if_neg hany] at h
    split at h
    · cases h
    · rename_i b hfind
      have hb := hInv.2 b (List.mem_of_find?_eq_some hfind)
      by_cases hcont : b.verifier_ids.contains v = true
      · rw [if_pos hcont] at h
        cases h
      · rw [if_neg hcont] at h
        by_cases hth : 2 ≤ (register_verification b v).verification_count
        · rw [if_pos hth] at h
          by_cases hstale :
              (register_verification b v).previous_hash = expectedPrev s
          · rw [if_pos hstale] at h
            rw [Except.ok.injEq, Prod.mk.injEq] at h
            obtain ⟨h1, h2⟩ := h
            subst h1
            constructor
            · refine (@validate_chain_congr (promote s (register_verification b v) bh)
                { s with chain := s.chain ++
                    [{ register_verification b v with
                        index := some s.chain.length }] } rfl rfl).trans ?_
              exact validate_chain_append hInv.1 hb.1 hstale hb.2
            · intro x hx
              have hx' : x ∈ s.pending.filter (fun y => ¬ y.hash = bh) := hx
              rw [List.mem_filter] at hx'
              exact hInv.2 x hx'.1
          · rw [if_neg hstale] at h
            cases h
        · rw [if_neg hth] at h
          rw [Except.ok.injEq, Prod.mk.injEq] at h
          obtain ⟨h1, h2⟩ := h
          subst h1
          constructor
          · exact (@validate_chain_congr _ s rfl rfl).trans hInv.1
          · intro x hx
            rw [List.mem_map] at hx
            obtain ⟨y, hy, hgy⟩ := hx
            by_cases hyh : y.hash = bh
            · rw [if_pos hyh] at hgy
              subst hgy
              exact ⟨hb.1, hb.2⟩
            · rw [if_neg hyh] at hgy
              subst hgy
              exact hInv.2 y hy

theorem reachable_coreInv {s : CStory} (h : Reachable s) : CoreInv s := by
  induction h with
  | created id title psid pbh =>
    exact ⟨rfl, by intro b hb; cases hb⟩
  | submitted hr hop ih => exact coreInv_submit ih hop
  | verified hr hop ih => exact coreInv_verify ih hop

/-! ## Concrete scenario used by the witnesses

A root story, one 250-word passage, two verifications by distinct
verifiers: the block is finalized at index 0. -/

def demoStory0 : CStory :=
  { id := "A", title := "T", chain := [], pending := [],
    parent_story_id := none, parent_block_hash := none }

def demoPassage : String := mkWords 250

def demoStory1 : CStory :=
  match submit_passage demoStory0 demoPassage "alice" 1 with
  | .ok q => q.1
  | .error _ => default

def demoBlock1 : CBlock :=
  match submit_passage demoStory0 demoPassage "alice" 1 with
  | .ok q => q.2
  | .error _ => default

set_option maxRecDepth 100000 in
theorem demoSubmit_eq :
    submit_passage demoStory0 demoPassage "alice" 1
      = .ok (demoStory1, demoBlock1) := rfl

def demoStory2 : CStory :=
  match verify_block demoStory1 demoBlock1.hash "alice" with
  | .ok q => q.1
  | .error _ => default

set_option maxRecDepth 100000 in
theorem demoVerify1_eq :
    verify_block demoStory1 demoBlock1.hash "alice"
      = .ok (demoStory2, false) := rfl

def demoStory3 : CStory :=
  match verify_block demoStory2 demoBlock1.hash "bob" with
  | .ok q => q.1
  | .error _ => default

set_option maxRecDepth 100000 in
theorem demoVerify2_eq :
    verify_block demoStory2 demoBlock1.hash "bob"
      = .ok (demoStory3, true) := rfl

theorem demoStory3_reachable : Reachable demoStory3 :=
  Reachable.verified
    (Reachable.verified
      (Reachable.submitted (Reachable.created "A" "T" none none) demoSubmit_eq)
      demoVerify1_eq)
    demoVerify2_eq

/-! ## Claim theorems: the core -/

/-- C10: the word count shown for a pending block in the mining view
(split without trimming, non-empty tokens) equals the word count used
to validate passage submission (trim, then split, non-empty tokens) —
trimming before splitting never changes the count of non-empty
whitespace-delimited tokens. -/
theorem C10_badge_count_eq_submit_count (s : String) :
    wordCount s = badgeWordCount s := by
  rw [wordCount_eq_runCount, badgeWordCount_eq_runCount]

/-- C9: every story reachable from creation by successful core
operations passes `validate_chain`: stored hashes match the recomputed
hashes, every block links to its predecessor, and the first block
carries the genesis sentinel (root story) or a branch point with no
`previous_hash` (branch story). -/
theorem C9_validate_chain_ok (s : CStory) (h : Reachable s) :
    validate_chain s = .ok :=
  (reachable_coreInv h).1

/-- Witness for C9: the concrete scenario — a root story with one
passage submitted and finalized by two verifications — validates. -/
theorem C9_validate_chain_ok_witness : validate_chain demoStory3 = .ok :=
  C9_validate_chain_ok demoStory3 demoStory3_reachable

/-- C6: passage submission accepts a passage exactly when its count of
non-empty whitespace-delimited tokens lies in [250, 500]; out-of-range
passages are rejected with `WordCountError` and no pending block is
created, in-range passages append exactly one pending block. -/
theorem C6_word_count_boundary (s : CStory) (passage author : String) (ts : Nat) :
    (isValidLength passage = true ↔
      (250 ≤ wordCount passage ∧ wordCount passage ≤ 500))
    ∧ ((wordCount passage < 250 ∨ 500 < wordCount passage) →
        submit_passage s passage author ts
          = .error (.wordCountError (wordCount passage)))
    ∧ (250 ≤ wordCount passage → wordCount passage ≤ 500 →
        ∃ b, submit_passage s passage author ts
          = .ok ({ s with pending := s.pending ++ [b] }, b)) := by
  refine ⟨?_, ?_, ?_⟩
  · unfold isValidLength
    rw [Bool.and_eq_true, decide_eq_true_eq, decide_eq_true_eq]
  · intro hbad
    unfold submit_passage
    rw [if_pos hbad]
  · intro h1 h2
    unfold submit_passage
    rw [if_neg (not_or.mpr ⟨Nat.not_lt.mpr h1, Nat.not_lt.mpr h2⟩)]
    exact ⟨_, rfl⟩

theorem runCountAux_mkWordsChars (n : Nat) :
    runCountAux false (mkWordsChars n) = n := by
  induction n with
  | zero => rfl
  | succ m ih =>
    cases m with
    | zero => rfl
    | succ k =>
      show runCountAux false ('w' :: ' ' :: mkWordsChars (k + 1)) = k + 2
      have h1 : isJsWs 'w' = false := rfl
      have h2 : isJsWs ' ' = true := rfl
      simp only [runCountAux, h1, h2, Bool.false_eq_true, if_false, if_true]
      rw [ih]
      omega

theorem wordCount_mkWords (n : Nat) : wordCount (mkWords n) = n := by
  rw [wordCount_eq_runCount]
  exact runCountAux_mkWordsChars n

theorem wordCount_mkWords_249 : wordCount (mkWords 249) = 249 :=
  wordCount_mkWords 249

theorem wordCount_mkWords_250 : wordCount (mkWords 250) = 250 :=
  wordCount_mkWords 250

theorem wordCount_mkWords_500 : wordCount (mkWords 500) = 500 :=
  wordCount_mkWords 500

theorem wordCount_mkWords_501 : wordCount (mkWords 501) = 501 :=
  wordCount_mkWords 501

/-- Witness for C6: the boundary passages — 250 and 500 words are
accepted, 249 and 501 words are rejected with the word-count error. -/
theorem C6_word_count_boundary_witness :
    isValidLength (mkWords 250) = true
    ∧ isValidLength (mkWords 500) = true
    ∧ isValidLength (mkWords 249) = false
    ∧ isValidLength (mkWords 501) = false
    ∧ submit_passage demoStory0 (mkWords 249) "alice" 0
        = .error (.wordCountError 249)
    ∧ submit_passage demoStory0 (mkWords 501) "alice" 0
        = .error (.wordCountError 501)
    ∧ (∃ b, submit_passage demoStory0 (mkWords 250) "alice" 0
        = .ok ({ demoStory0 with pending := demoStory0.pending ++ [b] }, b)) := by
  refine ⟨?_, ?_, ?_, ?_, ?_, ?_, ?_⟩
  · exact (C6_word_count_boundary demoStory0 (mkWords 250) "alice" 0).1.mpr
      (by rw [wordCount_mkWords_250]; exact ⟨by omega, by omega⟩)
  · exact (C6_word_count_boundary demoStory0 (mkWords 500) "alice" 0).1.mpr
      (by rw [wordCount_mkWords_500]; exact ⟨by omega, by omega⟩)
  · cases hb : isValidLength (mkWords 249) with
    | false => rfl
    | true =>
      exfalso
      have hx := (C6_word_count_boundary demoStory0 (mkWords 249) "alice" 0).1.mp hb
      rw [wordCount_mkWords_249] at hx
      omega
  · cases hb : isValidLength (mkWords 501) with
    | false => rfl
    | true =>
      exfalso
      have hx := (C6_word_count_boundary demoStory0 (mkWords 501) "alice" 0).1.mp hb
      rw [wordCount_mkWords_501] at hx
      omega
  · have hx := (C6_word_count_boundary demoStory0 (mkWords 249) "alice" 0).2.1
      (by rw [wordCount_mkWords_249]; omega)
    rw [wordCount_mkWords_249] at hx
    exact hx
  · have hx := (C6_word_count_boundary demoStory0 (mkWords 501) "alice" 0).2.1
      (by rw [wordCount_mkWords_501]; omega)
    rw [wordCount_mkWords_501] at hx
    exact hx
  · exact (C6_word_count_boundary demoStory0 (mkWords 250) "alice" 0).2.2
      (by rw [wordCount_mkWords_250]) (by rw [wordCount_mkWords_250]; omega)

/-! ## Claim C8: repeated verification by one identity -/

/-- The verification state recorded for the block with hash `h` in
story `s`: its count and verifier list, whether the block is still
pending or already finalized. -/
def blockRecord (s : CStory) (h : String) : Option (Nat × List String) :=
  ((s.pending.find? (fun b => b.hash = h)).or
      (s.chain.find? (fun b => b.hash = h))).map
    (fun b => (b.verification_count, b.verifier_ids))

theorem find?_map_hash (g : CBlock → CBlock) (hg : ∀ y, (g y).hash = y.hash)
    (l : List CBlock) (h : String) :
    (l.map g).find? (fun x => x.hash = h)
      = (l.find? (fun x => x.hash = h)).map g := by
  induction l with
  | nil => rfl
  | cons y l ih =>
    simp only [List.map_cons, List.find?_cons, hg y]
    cases hd : decide (y.hash = h) with
    | false => simpa [hd] using ih
    | true => simp [hd]

/-- C8 (amended): a successful `verify_block` call appends the
verifier and increments the count exactly once; a second call with the
same verifier fails — with `AlreadyVerifiedError` when the block is
still pending, and with `AlreadyFinalizedError` when the first call
promoted it — and in either case the count and verifier list reflect
exactly one registration. -/
theorem C8_two_verifications (s s' : CStory) (bh v : String) (f : Bool)
    (h : verify_block s bh v = .ok (s', f)) :
    ∃ b, s.pending.find? (fun x => x.hash = bh) = some b
      ∧ v ∉ b.verifier_ids
      ∧ blockRecord s' bh
          = some (b.verification_count + 1, b.verifier_ids ++ [v])
      ∧ verify_block s' bh v
          = .error (if f then CoreError.alreadyFinalized
                    else CoreError.alreadyVerified) := by
  unfold verify_block at h
  by_cases hany : s.chain.any (fun x => x.hash = bh) = true
  · rw [if_pos hany] at h
    cases h
  · rw [if_neg hany] at h
    split at h
    · cases h
    · rename_i b hfind
      have hbh : b.hash = bh := by
        have hd := List.find?_some hfind
        exact of_decide_eq_true hd
      by_cases hcont : b.verifier_ids.contains v = true
      · rw [if_pos hcont] at h
        cases h
      · rw [if_neg hcont] at h
        have hvnot : v ∉ b.verifier_ids :=
          fun hmem => hcont (List.elem_eq_true_of_mem hmem)
        by_cases hth : 2 ≤ (register_verification b v).verification_count
        · rw [if_pos hth] at h
          by_cases hstale :
              (register_verification b v).previous_hash = expectedPrev s
          · rw [if_pos hstale] at h
            rw [Except.ok.injEq, Prod.mk.injEq] at h
            obtain ⟨h1, h2⟩ := h
            subst h1
            subst h2
            have hp2 : (promote s (register_verification b v) bh).pending
                = s.pending.filter (fun x => ¬ x.hash = bh) := rfl
            have hc2 : (promote s (register_verification b v) bh).chain
                = s.chain ++ [{ register_verification b v with
                    index := some s.chain.length }] := rfl
            have hpend : (s.pending.filter (fun x => ¬ x.hash = bh)).find?
                (fun x => x.hash = bh) = none := by
              rw [List.find?_eq_none]
              intro x hx hxx
              rw [List.mem_filter] at hx
              exact (of_decide_eq_true hx.2) (of_decide_eq_true hxx)
            have hchainNone : s.chain.find? (fun x => x.hash = bh) = none := by
              rw [List.find?_eq_none]
              intro x hx hxx
              exact hany (List.any_eq_true.mpr ⟨x, hx, hxx⟩)
            have hfinEq : decide (({ register_verification b v with
                index := some s.chain.length } : CBlock).hash = bh) = true :=
              decide_eq_true hbh
            refine ⟨b, hfind, hvnot, ?_, ?_⟩
            · unfold blockRecord
              rw [hp2, hc2, hpend, List.find?_append, hchainNone]
              simp only [List.find?_cons, hfinEq]
              rfl
            · have hanyT : (promote s (register_verification b v) bh).chain.any
                  (fun x => x.hash = bh) = true := by
                rw [hc2, List.any_append]
                simp
                exact Or.inr hbh
              unfold verify_block
              rw [if_pos hanyT]
              rfl
          · rw [if_neg hstale] at h
            cases h
        · rw [if_neg hth] at h
          rw [Except.ok.injEq, Prod.mk.injEq] at h
          obtain ⟨h1, h2⟩ := h
          subst h1
          subst h2
          have hg : ∀ y : CBlock,
              ((if y.hash = bh then register_verification b v else y) : CBlock).hash
                = y.hash := by
            intro y
            by_cases hy : y.hash = bh
            · rw [if_pos hy, hy]
              exact hbh
            · rw [if_neg hy]
          have hfind2 : (s.pending.map
              (fun x => if x.hash = bh then register_verification b v else x)).find?
                (fun x => x.hash = bh) = some (register_verification b v) := by
            rw [find?_map_hash _ hg, hfind]
            simp [hbh]
          refine ⟨b, hfind, hvnot, ?_, ?_⟩
          · unfold blockRecord
            simp only [hfind2]
            rfl
          · unfold verify_block
            have hchain : ({ s with
                pending := s.pending.map
                  (fun x => if x.hash = bh then register_verification b v else x)
              } : CStory).chain = s.chain := rfl
            rw [hchain, if_neg hany]
            simp only [hfind2]
            have hcT : (register_verification b v).verifier_ids.contains v
                = true := by
              show (b.verifier_ids ++ [v]).contains v = true
              simp
            rw [if_pos hcT]
            rfl

/-- Witness for C8 (amended): on the concrete story whose single
pending block has one prior verification left to go, verifying once as
"alice" succeeds and verifying again as "alice" is rejected with
`AlreadyVerifiedError`. -/
theorem C8_two_verifications_witness :
    verify_block demoStory2 demoBlock1.hash "alice"
      = .error CoreError.alreadyVerified := by
  obtain ⟨b, hfind, hnot, hrec, hsecond⟩ :=
    C8_two_verifications demoStory1 demoStory2 demoBlock1.hash "alice" false
      demoVerify1_eq
  simpa using hsecond

set_option maxRecDepth 100000 in
theorem demoVerify3_eq :
    verify_block demoStory3 demoBlock1.hash "bob"
      = .error CoreError.alreadyFinalized := rfl

/-- Counterexample for C8 as stated: when the first call crosses the
verification threshold and finalizes the block, the second call with
the same verifier fails with `AlreadyFinalizedError`, not with the
`AlreadyVerifiedError` the claim asserts for every pending block. -/
theorem C8_counterexample :
    verify_block demoStory2 demoBlock1.hash "bob" = .ok (demoStory3, true)
    ∧ verify_block demoStory3 demoBlock1.hash "bob"
        = .error CoreError.alreadyFinalized
    ∧ verify_block demoStory3 demoBlock1.hash "bob"
        ≠ .error CoreError.alreadyVerified := by
  refine ⟨demoVerify2_eq, demoVerify3_eq, ?_⟩
  rw [demoVerify3_eq]
  intro hcon
  exact absurd (Except.error.inj hcon) (by decide)

/-! ## Claim C7: how the mining view identifies the block to verify -/

def pBlockA : CBlock :=
  { passage := "first pending passage", author := "a1", timestamp := 10,
    previous_hash := some GENESIS_HASH, parent_block_hash := none,
    hash := "hashA", index := none, verification_count := 0,
    verifier_ids := [] }

def pBlockB : CBlock :=
  { passage := "second pending passage", author := "a2", timestamp := 11,
    previous_hash := some GENESIS_HASH, parent_block_hash := none,
    hash := "hashB", index := none, verification_count := 0,
    verifier_ids := [] }

/-- Counterexample for C7 as stated: the mine request formed for the
first listed pending block is the same for two listings holding the
same two blocks in opposite orders, yet the affected pool entries have
different hashes — the request identifies the block by its position in
the listing, not by its hash. -/
theorem C7_counterexample :
    mineRequest "S" [pBlockA, pBlockB] 0 = mineRequest "S" [pBlockB, pBlockA] 0
    ∧ minedTarget [pBlockA, pBlockB] (mineRequest "S" [pBlockA, pBlockB] 0)
        = some pBlockA
    ∧ minedTarget [pBlockB, pBlockA] (mineRequest "S" [pBlockB, pBlockA] 0)
        = some pBlockB
    ∧ pBlockA.hash ≠ pBlockB.hash :=
  ⟨rfl, rfl, rfl, by decide⟩

/-- C7 (amended): the mine button of the pending block rendered at
position i transmits the listing position i together with the story id
(and not the block hash); the block affected is the pool entry at
position i at request time, which is the rendered block itself exactly
when the pool is unchanged. -/
theorem C7_mine_by_position (sid : String) (listing pool : List CBlock)
    (i : Nat) (b : CBlock) (hb : (i, b) ∈ renderedPendingButtons listing) :
    mineRequest sid listing i = (i, sid)
    ∧ minedTarget listing (mineRequest sid listing i) = some b
    ∧ minedTarget pool (mineRequest sid listing i) = pool.get? i := by
  refine ⟨rfl, ?_, rfl⟩
  show listing.get? i = some b
  rw [List.get?_eq_getElem?]
  exact List.mem_enum_iff_getElem?.mp hb

/-- Witness for C7 (amended): mining the second listed block of a
two-block pool affects that block. -/
theorem C7_mine_by_position_witness :
    mineRequest "S" [pBlockA, pBlockB] 1 = (1, "S")
    ∧ minedTarget [pBlockA, pBlockB] (mineRequest "S" [pBlockA, pBlockB] 1)
        = some pBlockB
    ∧ minedTarget [pBlockA, pBlockB] (mineRequest "S" [pBlockA, pBlockB] 1)
        = [pBlockA, pBlockB].get? 1 :=
  C7_mine_by_position "S" [pBlockA, pBlockB] [pBlockA, pBlockB] 1 pBlockB
    (by decide)

/-! ## Lineage resolution (StoryTree.js, buildTreeData)

The story records below carry the fields buildTreeData reads from the
API story objects: `id`, `title`, the finalized `chain` (block `hash`
and `parent_block_hash`), the pending pool, and the two story-level
branch fields.  JavaScript falsiness of a missing or empty string is
modelled by `jsStr`. -/

/-- A string-valued field as JavaScript truthiness sees it: a missing
value and the empty string are both falsy. -/
def jsStr : Option String → Option String
  | some s => if s = "" then none else some s
  | none => none

/-- The block fields read by buildTreeData (StoryTree.js lines
104-167). -/
structure SBlock where
  hash : Option String
  parent_block_hash : Option String
deriving DecidableEq, Repr

/-- The story fields read by buildTreeData.  `pending_blocks` is part
of the API story object but never consulted by the tree construction;
only `chain` feeds the hash index. -/
structure StoryRec where
  id : String
  title : String
  chain : List SBlock
  pending_blocks : List SBlock
  parent_story_id : Option String
  parent_block_hash : Option String
deriving DecidableEq, Repr

/-- JavaScript `Map.set`: overwrite the value in place when the key
exists, append otherwise (insertion order is preserved). -/
def mapSet {α : Type} (m : List (String × α)) (k : String) (v : α) :
    List (String × α) :=
  if m.any (fun q => q.1 = k) then m.map (fun q => if q.1 = k then (k, v) else q)
  else m ++ [(k, v)]

/-- StoryTree.js lines 91-96: `storyMap`, keyed by story id, skipping
entries with a falsy id. -/
def buildStoryMap (stories : List StoryRec) : List (String × StoryRec) :=
  stories.foldl
    (fun m story => if story.id ≠ "" then mapSet m story.id story else m) []

/-- StoryTree.js lines 104-115: `blockHashToStory`, built once per
pass over the finalized chain of every story; blocks with a falsy hash are
skipped. -/
def buildHashIndex (sm : List (String × StoryRec)) : List (String × String) :=
  sm.foldl
    (fun m q =>
      q.2.chain.foldl
        (fun m2 blk =>
          match jsStr blk.hash with
          | some h => mapSet m2 h q.1
          | none => m2)
        m)
    []

/-- JavaScript `Map.get` on the association list. -/
def lookupHash (idx : List (String × String)) (h : String) : Option String :=
  (idx.find? (fun q => q.1 = h)).map (fun q => q.2)

/-- StoryTree.js lines 150-166: one step of the chain scan — a block
contributes the story owning its `parent_block_hash`, provided that
hash is truthy, resolves in the index, and resolves to a different
story. -/
def chainScanStep (idx : List (String × String)) (id : String) (b : SBlock) :
    Option String :=
  match jsStr b.parent_block_hash with
  | some h =>
    match lookupHash idx h with
    | some r => if r ≠ "" ∧ r ≠ id then some r else none
    | none => none
  | none => none

/-- StoryTree.js lines 129-167: the `parentId` computed for one story.
Priority: the explicit `parent_story_id` whenever truthy; else the
story-level `parent_block_hash` looked up in the index (self matches
discarded); else the first block of the own chain of the story whose
`parent_block_hash` resolves to a different story.  Line 130 also
probes the alternate spellings `parentStoryId` and `parent_story` of
the same field; the API story object has the one field modelled
here. -/
def resolvedParentId (idx : List (String × String)) (id : String)
    (story : StoryRec) : Option String :=
  match jsStr story.parent_story_id with
  | some p => some p
  | none =>
    match
      (match jsStr story.parent_block_hash with
       | some h =>
         match lookupHash idx h with
         | some p => if p ≠ "" ∧ p ≠ id then some p else none
         | none => none
       | none => none) with
    | some p => some p
    | none =>
      if story.chain.isEmpty then none
      else story.chain.findSome? (chainScanStep idx id)

/-- The hash index of a registry snapshot. -/
def hashIndex (stories : List StoryRec) : List (String × String) :=
  buildHashIndex (buildStoryMap stories)

/-- The nodes of the tree with their resolved parent ids, in story-map
order (StoryTree.js lines 119-187). -/
def nodeEntries (stories : List StoryRec) : List (String × Option String) :=
  (buildStoryMap stories).map
    (fun q => (q.1, resolvedParentId (hashIndex stories) q.1 q.2))

def nodeIds (stories : List StoryRec) : List String :=
  (nodeEntries stories).map (fun q => q.1)

/-- The resolved parent field of the node with the given id. -/
def parentIdOf (stories : List StoryRec) (id : String) :
    Option (Option String) :=
  ((nodeEntries stories).find? (fun q => q.1 = id)).map (fun q => q.2)

/-- StoryTree.js lines 195-211: a node joins `rootNodes` when its
parentId is falsy or names no node in the map. -/
def rootIds (stories : List StoryRec) : List String :=
  (nodeEntries stories).filterMap
    (fun q =>
      match q.2 with
      | none => some q.1
      | some p => if (nodeIds stories).contains p then none else some q.1)

/-- StoryTree.js lines 195-211: the children pushed onto the node with
id `pid`, in map order. -/
def childIds (stories : List StoryRec) (pid : String) : List String :=
  (nodeEntries stories).filterMap
    (fun q => if q.2 = some pid then some q.1 else none)

/-- The tree edge actually used upward from a node: its resolved
parent when that parent is a node of the map, nothing otherwise. -/
def parentEdge (stories : List StoryRec) (id : String) : Option String :=
  match parentIdOf stories id with
  | some (some p) => if (nodeIds stories).contains p then some p else none
  | _ => none

/-- StoryTree.js lines 222-228: `calculateLevel`, the recursive
assignment `node.level = level` followed by recursion into the
children with `level + 1`.  The fuel bounds the recursion depth; the
list collects the assignments in execution order. -/
def calculateLevel (stories : List StoryRec) :
    Nat → String → Nat → List (String × Nat)
  | 0, _, _ => []
  | fuel + 1, id, lvl =>
    (id, lvl) ::
      ((childIds stories id).map
        (fun c => calculateLevel stories fuel c (lvl + 1))).flatten

/-- StoryTree.js line 228: `rootNodes.forEach(root =>
calculateLevel(root))`. -/
def levelAssignments (stories : List StoryRec) : List (String × Nat) :=
  ((rootIds stories).map
    (fun r => calculateLevel stories ((nodeIds stories).length + 1) r 0)).flatten

/-- The final level of a node: the last assignment wins, and a node
never visited keeps the initial level 0 (StoryTree.js line 178). -/
def levelOf (stories : List StoryRec) (id : String) : Nat :=
  (levelAssignments stories).foldl
    (fun acc q => if q.1 = id then q.2 else acc) 0

/-- The distance from a node to its root along `parentEdge`, when the
parent chain terminates within the given fuel. -/
def depthToRoot (stories : List StoryRec) : Nat → String → Option Nat
  | 0, _ => none
  | fuel + 1, id =>
    match parentEdge stories id with
    | none => some 0
    | some p => (depthToRoot stories fuel p).map (fun d => d + 1)

/-! ### Association-list plumbing -/

theorem mapSet_keys_of_mem {α : Type} {m : List (String × α)} {k : String}
    (v : α) (h : m.any (fun q => q.1 = k) = true) :
    (mapSet m k v).map (fun q => q.1) = m.map (fun q => q.1) := by
  unfold mapSet
  rw [if_pos h, List.map_map]
  apply List.map_congr_left
  intro q _
  by_cases hq : q.1 = k
  · simp [hq]
  · simp [hq]

theorem mapSet_keys_of_not_mem {α : Type} {m : List (String × α)} {k : String}
    (v : α) (h : ¬ m.any (fun q => q.1 = k) = true) :
    (mapSet m k v).map (fun q => q.1) = m.map (fun q => q.1) ++ [k] := by
  unfold mapSet
  rw [if_neg h, List.map_append]
  rfl

theorem not_mem_keys_of_not_any {α : Type} {m : List (String × α)} {k : String}
    (h : ¬ m.any (fun q => q.1 = k) = true) :
    k ∉ m.map (fun q => q.1) := by
  intro hk
  rw [List.mem_map] at hk
  obtain ⟨q, hq, hqk⟩ := hk
  exact h (List.any_eq_true.mpr ⟨q, hq, by simp [hqk]⟩)

theorem mapSet_keys_nodup {α : Type} {m : List (String × α)} {k : String}
    (v : α) (h : (m.map (fun q => q.1)).Nodup) :
    ((mapSet m k v).map (fun q => q.1)).Nodup := by
  by_cases hm : m.any (fun q => q.1 = k) = true
  · rw [mapSet_keys_of_mem v hm]
    exact h
  · rw [mapSet_keys_of_not_mem v hm]
    rw [List.nodup_append]
    refine ⟨h, List.nodup_singleton k, ?_⟩
    intro a ha hak
    rw [List.mem_singleton] at hak
    subst hak
    exact (not_mem_keys_of_not_any hm) ha

theorem mem_mapSet {α : Type} {m : List (String × α)} {k : String} {v : α}
    {q : String × α} (h : q ∈ mapSet m k v) : q ∈ m ∨ q = (k, v) := by
  unfold mapSet at h
  by_cases hm : m.any (fun x => x.1 = k) = true
  · rw [if_pos hm, List.mem_map] at h
    obtain ⟨x, hx, hxq⟩ := h
    by_cases hxk : x.1 = k
    · rw [if_pos hxk] at hxq
      exact Or.inr hxq.symm
    · rw [if_neg hxk] at hxq
      exact Or.inl (hxq ▸ hx)
  · rw [if_neg hm, List.mem_append] at h
    rcases h with h | h
    · exact Or.inl h
    · rw [List.mem_singleton] at h
      exact Or.inr h

theorem buildStoryMap_keys_nodup (stories : List StoryRec) :
    ((buildStoryMap stories).map (fun q => q.1)).Nodup := by
  suffices hgen : ∀ (l : List StoryRec) (m : List (String × StoryRec)),
      (m.map (fun q => q.1)).Nodup →
      ((l.foldl (fun m story =>
          if story.id ≠ "" then mapSet m story.id story else m) m).map
        (fun q => q.1)).Nodup by
    exact hgen stories [] (by simp)
  intro l
  induction l with
  | nil => intro m hm; exact hm
  | cons st l ih =>
    intro m hm
    simp only [List.foldl_cons]
    by_cases hid : st.id ≠ ""
    · rw [if_pos hid]
      exact ih _ (mapSet_keys_nodup st hm)
    · rw [if_neg hid]
      exact ih _ hm

theorem buildStoryMap_keys_ne_empty (stories : List StoryRec) :
    ∀ q ∈ buildStoryMap stories, q.1 ≠ "" := by
  suffices hgen : ∀ (l : List StoryRec) (m : List (String × StoryRec)),
      (∀ q ∈ m, q.1 ≠ "") →
      ∀ q ∈ l.foldl (fun m story =>
          if story.id ≠ "" then mapSet m story.id story else m) m, q.1 ≠ "" by
    exact hgen stories [] (by intro q hq; cases hq)
  intro l
  induction l with
  | nil => intro m hm; exact hm
  | cons st l ih =>
    intro m hm
    simp only [List.foldl_cons]
    by_cases hid : st.id ≠ ""
    · rw [if_pos hid]
      refine ih _ ?_
      intro q hq
      rcases mem_mapSet hq with hq | hq
      · exact hm q hq
      · rw [hq]
        exact hid
    · rw [if_neg hid]
      exact ih _ hm

/-- With pairwise-distinct keys, membership determines the lookup. -/
theorem find?_eq_of_mem_nodup {α : Type} {m : List (String × α)} {k : String}
    {v : α} (hnd : (m.map (fun q => q.1)).Nodup) (hmem : (k, v) ∈ m) :
    m.find? (fun q => q.1 = k) = some (k, v) := by
  induction m with
  | nil => cases hmem
  | cons q m ih =>
    rw [List.map_cons, List.nodup_cons] at hnd
    rcases List.mem_cons.mp hmem with hq | hq
    · subst hq
      simp [List.find?_cons]
    · by_cases hqk : q.1 = k
      · exfalso
        apply hnd.1
        rw [List.mem_map]
        exact ⟨(k, v), hq, by simp [hqk]⟩
      · rw [List.find?_cons]
        have : decide (q.1 = k) = false := by simp [hqk]
        rw [this]
        exact ih hnd.2 hq

/-! ### Node-map facts -/

theorem nodeIds_eq_storyMap_keys (stories : List StoryRec) :
    nodeIds stories = (buildStoryMap stories).map (fun q => q.1) := by
  unfold nodeIds nodeEntries
  rw [List.map_map]
  rfl

theorem nodeEntries_keys_nodup (stories : List StoryRec) :
    ((nodeEntries stories).map (fun q => q.1)).Nodup := by
  have h := buildStoryMap_keys_nodup stories
  unfold nodeEntries
  rw [List.map_map]
  exact h

theorem nodeIds_nodup (stories : List StoryRec) : (nodeIds stories).Nodup :=
  nodeEntries_keys_nodup stories

theorem mem_nodeIds_of_entry {stories : List StoryRec} {id : String}
    {po : Option String} (h : (id, po) ∈ nodeEntries stories) :
    id ∈ nodeIds stories := by
  unfold nodeIds
  rw [List.mem_map]
  exact ⟨(id, po), h, rfl⟩

theorem entry_of_mem_nodeIds {stories : List StoryRec} {id : String}
    (h : id ∈ nodeIds stories) : ∃ po, (id, po) ∈ nodeEntries stories := by
  unfold nodeIds at h
  rw [List.mem_map] at h
  obtain ⟨q, hq, hq1⟩ := h
  exact ⟨q.2, by rwa [show (id, q.2) = q from by rw [← hq1]]⟩

theorem nodeEntry_of_storyMap {stories : List StoryRec} {id : String}
    {story : StoryRec} (h : (id, story) ∈ buildStoryMap stories) :
    (id, resolvedParentId (hashIndex stories) id story) ∈ nodeEntries stories := by
  unfold nodeEntries
  rw [List.mem_map]
  exact ⟨(id, story), h, rfl⟩

theorem parentIdOf_eq {stories : List StoryRec} {id : String}
    {po : Option String} (h : (id, po) ∈ nodeEntries stories) :
    parentIdOf stories id = some po := by
  unfold parentIdOf
  rw [find?_eq_of_mem_nodup (nodeEntries_keys_nodup stories) h]
  rfl

theorem mem_childIds_iff {stories : List StoryRec} {c p : String} :
    c ∈ childIds stories p ↔ (c, some p) ∈ nodeEntries stories := by
  unfold childIds
  rw [List.mem_filterMap]
  constructor
  · rintro ⟨q, hq, hqc⟩
    by_cases h2 : q.2 = some p
    · rw [if_pos h2] at hqc
      have : q = (c, some p) := by
        cases q
        simp at hqc h2 ⊢
        exact ⟨hqc, h2⟩
      rwa [this] at hq
    · rw [if_neg h2] at hqc
      cases hqc
  · intro h
    exact ⟨(c, some p), h, by simp⟩

theorem parentEdge_of_child {stories : List StoryRec} {c p : String}
    (hp : p ∈ nodeIds stories) (hc : c ∈ childIds stories p) :
    parentEdge stories c = some p ∧ c ∈ nodeIds stories := by
  have hentry := mem_childIds_iff.mp hc
  refine ⟨?_, mem_nodeIds_of_entry hentry⟩
  unfold parentEdge
  rw [parentIdOf_eq hentry]
  show (if (nodeIds stories).contains p = true then some p else none) = some p
  rw [if_pos (by simpa using hp)]

theorem child_of_parentEdge {stories : List StoryRec} {c p : String}
    (h : parentEdge stories c = some p) :
    c ∈ childIds stories p ∧ p ∈ nodeIds stories := by
  unfold parentEdge at h
  cases hpo : parentIdOf stories c with
  | none => rw [hpo] at h; cases h
  | some po =>
    rw [hpo] at h
    cases po with
    | none => cases h
    | some p2 =>
      have h' : (if (nodeIds stories).contains p2 = true then some p2 else none)
          = some p := h
      by_cases hcont : (nodeIds stories).contains p2 = true
      · rw [if_pos hcont] at h'
        obtain rfl : p2 = p := by
          injection h'
        have hmem : (c, some p2) ∈ nodeEntries stories := by
          unfold parentIdOf at hpo
          cases hfind : (nodeEntries stories).find? (fun q => q.1 = c) with
          | none => rw [hfind] at hpo; cases hpo
          | some q =>
            rw [hfind] at hpo
            have hpo' : some q.2 = some (some p2) := hpo
            have hq2 : q.2 = some p2 := by
              injection hpo'
            have hd := List.find?_some hfind
            have hq1 : q.1 = c := of_decide_eq_true hd
            have hqm := List.mem_of_find?_eq_some hfind
            rw [show ((c, some p2) : String × Option String) = q from by
              cases q
              simp at hq1 hq2 ⊢
              exact ⟨hq1.symm, hq2.symm⟩]
            exact hqm
        exact ⟨mem_childIds_iff.mpr hmem, by simpa using hcont⟩
      · rw [if_neg hcont] at h'
        cases h'

theorem mem_rootIds_iff {stories : List StoryRec} {id : String} :
    id ∈ rootIds stories ↔
      id ∈ nodeIds stories ∧ parentEdge stories id = none := by
  unfold rootIds
  rw [List.mem_filterMap]
  constructor
  · rintro ⟨q, hq, hqm⟩
    cases hq2 : q.2 with
    | none =>
      rw [hq2] at hqm
      have hqid : q.1 = id := by injection hqm
      have hentry : (id, none) ∈ nodeEntries stories := by
        rw [show ((id, none) : String × Option String) = q from by
          cases q
          simp at hqid hq2 ⊢
          exact ⟨hqid.symm, hq2.symm⟩]
        exact hq
      refine ⟨mem_nodeIds_of_entry hentry, ?_⟩
      unfold parentEdge
      rw [parentIdOf_eq hentry]
    | some p =>
      rw [hq2] at hqm
      have hqm' : (if (nodeIds stories).contains p = true then none
          else some q.1) = some id := hqm
      by_cases hcont : (nodeIds stories).contains p = true
      · rw [if_pos hcont] at hqm'
        cases hqm'
      · rw [if_neg hcont] at hqm'
        have hqid : q.1 = id := by injection hqm'
        have hentry : (id, some p) ∈ nodeEntries stories := by
          rw [show ((id, some p) : String × Option String) = q from by
            cases q
            simp at hqid hq2 ⊢
            exact ⟨hqid.symm, hq2.symm⟩]
          exact hq
        refine ⟨mem_nodeIds_of_entry hentry, ?_⟩
        unfold parentEdge
        rw [parentIdOf_eq hentry]
        show (if (nodeIds stories).contains p = true then some p else none) = none
        rw [if_neg hcont]
  · rintro ⟨hid, hpe⟩
    obtain ⟨po, hentry⟩ := entry_of_mem_nodeIds hid
    unfold parentEdge at hpe
    rw [parentIdOf_eq hentry] at hpe
    cases po with
    | none => exact ⟨(id, none), hentry, rfl⟩
    | some p =>
      have hpe' : (if (nodeIds stories).contains p = true then some p else none)
          = none := hpe
      by_cases hcont : (nodeIds stories).contains p = true
      · rw [if_pos hcont] at hpe'
        cases hpe'
      · refine ⟨(id, some p), hentry, ?_⟩
        show (if (nodeIds stories).contains p = true then none else some id)
          = some id
        rw [if_neg hcont]

/-! ### Properties of the level computation -/

theorem depthToRoot_mono {stories : List StoryRec} :
    ∀ {fuel : Nat} {id : String} {d : Nat},
      depthToRoot stories fuel id = some d →
      ∀ {fuel2 : Nat}, fuel ≤ fuel2 → depthToRoot stories fuel2 id = some d := by
  intro fuel
  induction fuel with
  | zero => intro id d h; cases h
  | succ f ih =>
    intro id d h fuel2 hle
    obtain ⟨f2, rfl⟩ : ∃ f2, fuel2 = f2 + 1 := by
      cases fuel2 with
      | zero => omega
      | succ f2 => exact ⟨f2, rfl⟩
    unfold depthToRoot at h ⊢
    cases hpe : parentEdge stories id with
    | none =>
      rw [hpe] at h
      exact h
    | some p =>
      rw [hpe] at h
      have h' : Option.map (fun d => d + 1) (depthToRoot stories f p)
          = some d := h
      show Option.map (fun d => d + 1) (depthToRoot stories f2 p) = some d
      cases hd : depthToRoot stories f p with
      | none => rw [hd] at h'; cases h'
      | some dp =>
        rw [hd] at h'
        rw [ih hd (by omega : f ≤ f2)]
        exact h'

theorem depthToRoot_lt_fuel {stories : List StoryRec} :
    ∀ {fuel : Nat} {id : String} {d : Nat},
      depthToRoot stories fuel id = some d → d < fuel := by
  intro fuel
  induction fuel with
  | zero => intro id d h; cases h
  | succ f ih =>
    intro id d h
    unfold depthToRoot at h
    cases hpe : parentEdge stories id with
    | none =>
      rw [hpe] at h
      have h' : (some 0 : Option Nat) = some d := h
      have : (0 : Nat) = d := by injection h'
      omega
    | some p =>
      rw [hpe] at h
      have h' : Option.map (fun d => d + 1) (depthToRoot stories f p)
          = some d := h
      cases hd : depthToRoot stories f p with
      | none => rw [hd] at h'; cases h'
      | some dp =>
        rw [hd] at h'
        have hdp : dp + 1 = d := by
          have h'' : some (dp + 1) = some d := h'
          injection h''
        have := ih hd
        omega

theorem depthToRoot_inj {stories : List StoryRec} {f1 f2 : Nat} {id : String}
    {d1 d2 : Nat} (h1 : depthToRoot stories f1 id = some d1)
    (h2 : depthToRoot stories f2 id = some d2) : d1 = d2 := by
  have h1' := depthToRoot_mono h1 (Nat.le_max_left f1 f2)
  have h2' := depthToRoot_mono h2 (Nat.le_max_right f1 f2)
  rw [h1'] at h2'
  injection h2'

/-- Soundness of the recursive level assignment: every assignment made
while walking down from a node with a known depth records exactly the
depth of the assigned node. -/
theorem calculateLevel_sound {stories : List StoryRec} :
    ∀ {fuel : Nat} {r : String} {l0 : Nat} {x : String} {l : Nat},
      r ∈ nodeIds stories →
      (x, l) ∈ calculateLevel stories fuel r l0 →
      ∀ {f dr : Nat}, depthToRoot stories f r = some dr →
        ∃ k, l = l0 + k ∧ k < fuel ∧ x ∈ nodeIds stories ∧
          depthToRoot stories (f + k) x = some (dr + k) := by
  intro fuel
  induction fuel with
  | zero => intro r l0 x l _ h; cases h
  | succ fuel ih =>
    intro r l0 x l hr h f dr hdr
    unfold calculateLevel at h
    rcases List.mem_cons.mp h with h | h
    · obtain ⟨rfl, rfl⟩ : x = r ∧ l = l0 := by
        have h1 : x = r := congrArg Prod.fst h
        have h2 : l = l0 := congrArg Prod.snd h
        exact ⟨h1, h2⟩
      exact ⟨0, by omega, by omega, hr, by simpa using hdr⟩
    · rw [List.mem_flatten] at h
      obtain ⟨sub, hsub, hxsub⟩ := h
      rw [List.mem_map] at hsub
      obtain ⟨c, hc, rfl⟩ := hsub
      obtain ⟨hpec, hcid⟩ := parentEdge_of_child hr hc
      have hdc : depthToRoot stories (f + 1) c = some (dr + 1) := by
        unfold depthToRoot
        rw [hpec]
        show Option.map (fun d => d + 1) (depthToRoot stories f r) = some (dr + 1)
        rw [hdr]
        rfl
      obtain ⟨k, hk1, hk2, hk3, hk4⟩ := ih hcid hxsub hdc
      refine ⟨k + 1, by omega, by omega, hk3, ?_⟩
      have : f + 1 + k = f + (k + 1) := by omega
      rw [← this]
      have : dr + 1 + k = dr + (k + 1) := by omega
      rw [← this]
      exact hk4

/-- Levels assigned below a node never go below the starting level. -/
theorem mem_calculateLevel_ge {stories : List StoryRec} :
    ∀ {fuel : Nat} {r : String} {l0 : Nat} {x : String} {l : Nat},
      (x, l) ∈ calculateLevel stories fuel r l0 → l0 ≤ l := by
  intro fuel
  induction fuel with
  | zero => intro r l0 x l h; cases h
  | succ fuel ih =>
    intro r l0 x l h
    unfold calculateLevel at h
    rcases List.mem_cons.mp h with h | h
    · have : l = l0 := congrArg Prod.snd h
      omega
    · rw [List.mem_flatten] at h
      obtain ⟨sub, hsub, hxsub⟩ := h
      rw [List.mem_map] at hsub
      obtain ⟨c, _, rfl⟩ := hsub
      have := ih hxsub
      omega

/-- Extension: if a node was assigned at depth `k` below the root and
there is enough fuel left, each of its children is assigned at depth
`k + 1`. -/
theorem calculateLevel_extend {stories : List StoryRec} :
    ∀ {fuel : Nat} {r : String} {l0 : Nat} {p : String} {k : Nat} {c : String},
      (p, l0 + k) ∈ calculateLevel stories fuel r l0 →
      c ∈ childIds stories p → k + 2 ≤ fuel →
      (c, l0 + k + 1) ∈ calculateLevel stories fuel r l0 := by
  intro fuel
  induction fuel with
  | zero => intro r l0 p k c h; cases h
  | succ fuel ih =>
    intro r l0 p k c h hc hfuel
    unfold calculateLevel at h ⊢
    rcases List.mem_cons.mp h with h | h
    · have hpr : p = r := congrArg Prod.fst h
      have hk0 : l0 + k = l0 := congrArg Prod.snd h
      have hk : k = 0 := by omega
      subst hpr
      subst hk
      apply List.mem_cons_of_mem
      rw [List.mem_flatten]
      refine ⟨calculateLevel stories fuel c (l0 + 1), ?_, ?_⟩
      · rw [List.mem_map]
        exact ⟨c, hc, rfl⟩
      · obtain ⟨fuel2, rfl⟩ : ∃ f2, fuel = f2 + 1 := by
          cases fuel with
          | zero => omega
          | succ f2 => exact ⟨f2, rfl⟩
        unfold calculateLevel
        apply List.mem_cons_self
    · rw [List.mem_flatten] at h
      obtain ⟨sub, hsub, hpsub⟩ := h
      rw [List.mem_map] at hsub
      obtain ⟨c2, hc2, rfl⟩ := hsub
      have hge := mem_calculateLevel_ge hpsub
      obtain ⟨k2, rfl⟩ : ∃ k2, k = k2 + 1 := ⟨k - 1, by omega⟩
      have h' : (p, (l0 + 1) + k2) ∈ calculateLevel stories fuel c2 (l0 + 1) := by
        rw [show (l0 + 1) + k2 = l0 + (k2 + 1) from by omega]
        exact hpsub
      have hext := ih h' hc (by omega : k2 + 2 ≤ fuel)
      apply List.mem_cons_of_mem
      rw [List.mem_flatten]
      refine ⟨calculateLevel stories fuel c2 (l0 + 1), ?_, ?_⟩
      · rw [List.mem_map]
        exact ⟨c2, hc2, rfl⟩
      · rw [show l0 + (k2 + 1) + 1 = (l0 + 1) + k2 + 1 from by omega]
        exact hext

/-- Completeness: every node whose parent chain terminates is assigned
its distance from its root by the traversal from some root node. -/
theorem calculateLevel_complete {stories : List StoryRec} :
    ∀ (d : Nat) (x : String), x ∈ nodeIds stories →
      depthToRoot stories ((nodeIds stories).length + 1) x = some d →
      ∃ r ∈ rootIds stories,
        (x, d) ∈ calculateLevel stories ((nodeIds stories).length + 1) r 0 := by
  intro d
  induction d with
  | zero =>
    intro x hx hd
    have hpe : parentEdge stories x = none := by
      unfold depthToRoot at hd
      cases hpe : parentEdge stories x with
      | none => rfl
      | some p =>
        rw [hpe] at hd
        exfalso
        have hd0 : Option.map (fun d => d + 1)
            (depthToRoot stories (nodeIds stories).length p) = some 0 := hd
        cases hdp : depthToRoot stories (nodeIds stories).length p with
        | none =>
          rw [hdp] at hd0
          cases hd0
        | some dp =>
          rw [hdp] at hd0
          have hd' : some (dp + 1) = some 0 := hd0
          have : dp + 1 = 0 := by injection hd'
          omega
    refine ⟨x, mem_rootIds_iff.mpr ⟨hx, hpe⟩, ?_⟩
    unfold calculateLevel
    exact List.mem_cons_self _ _
  | succ d ih =>
    intro x hx hd
    obtain ⟨p, hpe, hdp⟩ : ∃ p, parentEdge stories x = some p ∧
        depthToRoot stories (nodeIds stories).length p = some d := by
      unfold depthToRoot at hd
      cases hpe : parentEdge stories x with
      | none =>
        rw [hpe] at hd
        have hd' : (some 0 : Option Nat) = some (d + 1) := hd
        have : (0 : Nat) = d + 1 := by injection hd'
        omega
      | some p =>
        rw [hpe] at hd
        have hd0 : Option.map (fun d => d + 1)
            (depthToRoot stories (nodeIds stories).length p) = some (d + 1) := hd
        cases hdp : depthToRoot stories (nodeIds stories).length p with
        | none =>
          rw [hdp] at hd0
          cases hd0
        | some dp =>
          rw [hdp] at hd0
          have hd' : some (dp + 1) = some (d + 1) := hd0
          have : dp + 1 = d + 1 := by injection hd'
          exact ⟨p, rfl, by rw [hdp]; congr 1; omega⟩
    obtain ⟨hxc, hpid⟩ := child_of_parentEdge hpe
    have hdp' : depthToRoot stories ((nodeIds stories).length + 1) p = some d :=
      depthToRoot_mono hdp (by omega)
    obtain ⟨r, hr, hpr⟩ := ih p hpid hdp'
    refine ⟨r, hr, ?_⟩
    have hdd : d + 1 < (nodeIds stories).length + 1 := depthToRoot_lt_fuel hd
    have hpr' : (p, 0 + d) ∈
        calculateLevel stories ((nodeIds stories).length + 1) r 0 := by
      simpa using hpr
    have hxm := calculateLevel_extend hpr' hxc
      (by omega : d + 2 ≤ (nodeIds stories).length + 1)
    simpa using hxm

theorem foldl_levels_of_none {id : String} :
    ∀ (l : List (String × Nat)), (∀ q ∈ l, q.1 ≠ id) →
      ∀ a, l.foldl (fun acc q => if q.1 = id then q.2 else acc) a = a := by
  intro l
  induction l with
  | nil => intro _ a; rfl
  | cons q l ih =>
    intro hnone a
    rw [List.foldl_cons, if_neg (hnone q (List.mem_cons_self q l))]
    exact ih (fun x hx => hnone x (List.mem_cons_of_mem q hx)) a

theorem foldl_levels_of_all {id : String} {d : Nat} :
    ∀ (l : List (String × Nat)), (∀ q ∈ l, q.1 = id → q.2 = d) →
      (∃ q ∈ l, q.1 = id) →
      ∀ a, l.foldl (fun acc q => if q.1 = id then q.2 else acc) a = d := by
  intro l
  induction l with
  | nil =>
    rintro _ ⟨q, hq, _⟩
    cases hq
  | cons q l ih =>
    intro hall hex a
    rw [List.foldl_cons]
    by_cases htail : ∃ x ∈ l, x.1 = id
    · exact ih (fun x hx => hall x (List.mem_cons_of_mem q hx)) htail _
    · have hq : q.1 = id := by
        obtain ⟨x, hx, hxid⟩ := hex
        rcases List.mem_cons.mp hx with rfl | hx
        · exact hxid
        · exact absurd ⟨x, hx, hxid⟩ htail
      rw [if_pos hq, hall q (List.mem_cons_self q l) hq]
      apply foldl_levels_of_none
      intro x hx hxid
      exact htail ⟨x, hx, hxid⟩

/-- Every level assignment records the distance of the assigned node from
its root. -/
theorem levelAssignments_spec {stories : List StoryRec} {x : String} {l : Nat}
    (h : (x, l) ∈ levelAssignments stories) :
    x ∈ nodeIds stories ∧
      depthToRoot stories ((nodeIds stories).length + 1) x = some l := by
  unfold levelAssignments at h
  rw [List.mem_flatten] at h
  obtain ⟨sub, hsub, hx⟩ := h
  rw [List.mem_map] at hsub
  obtain ⟨r, hr, rfl⟩ := hsub
  have hroot := mem_rootIds_iff.mp hr
  have hdr : depthToRoot stories 1 r = some 0 := by
    unfold depthToRoot
    rw [hroot.2]
  obtain ⟨k, hk1, hk2, hk3, hk4⟩ := calculateLevel_sound hroot.1 hx hdr
  obtain rfl : l = k := by omega
  refine ⟨hk3, ?_⟩
  have := depthToRoot_mono hk4 (by omega : 1 + l ≤ (nodeIds stories).length + 1)
  rw [show 0 + l = l from by omega] at this
  exact this

/-- The DFS from the roots assigns every node with a terminating
parent chain exactly its distance from its root. -/
theorem levelOf_eq_depth (stories : List StoryRec) {id : String} {d : Nat}
    (hid : id ∈ nodeIds stories)
    (hd : depthToRoot stories ((nodeIds stories).length + 1) id = some d) :
    levelOf stories id = d := by
  obtain ⟨r, hr, hocc⟩ := calculateLevel_complete d id hid hd
  have hmem : (id, d) ∈ levelAssignments stories := by
    unfold levelAssignments
    rw [List.mem_flatten]
    refine ⟨calculateLevel stories ((nodeIds stories).length + 1) r 0, ?_, hocc⟩
    rw [List.mem_map]
    exact ⟨r, hr, rfl⟩
  have hall : ∀ q ∈ levelAssignments stories, q.1 = id → q.2 = d := by
    intro q hq hq1
    cases q with
    | mk q1 q2 =>
      subst hq1
      have hspec := levelAssignments_spec hq
      exact depthToRoot_inj hspec.2 hd
  exact foldl_levels_of_all (levelAssignments stories) hall
    ⟨(id, d), hmem, rfl⟩ 0

/-! ## Claim theorems: lineage levels (C4, C5) -/

/-- C4 (amended): when following the parent links from a story never
reaches a root (a cycle in malformed data), the story is not listed as
a root and the level traversal never visits it, leaving its level at
the initial value 0; no cycle warning of any kind is produced, and the
resolution still terminates on every registry (the functions here are
total). -/
theorem C4_cycle_not_root (stories : List StoryRec) (id : String)
    (hid : id ∈ nodeIds stories)
    (hcyc : depthToRoot stories ((nodeIds stories).length + 1) id = none) :
    id ∉ rootIds stories ∧ levelOf stories id = 0 := by
  constructor
  · intro hroot
    have hpe := (mem_rootIds_iff.mp hroot).2
    have h0 : depthToRoot stories ((nodeIds stories).length + 1) id
        = some 0 := by
      unfold depthToRoot
      rw [hpe]
    rw [h0] at hcyc
    cases hcyc
  · unfold levelOf
    apply foldl_levels_of_none
    intro q hq hq1
    cases q with
    | mk q1 q2 =>
      subst hq1
      have hspec := levelAssignments_spec hq
      rw [hcyc] at hspec
      cases hspec.2

/-- C5: in the forest produced by the resolution (the parent
chain of every story terminates), each root is assigned level 0, each non-root story
is assigned the level of its parent plus one, and every level equals the
distance of the story from its root — a quantity independent of the
traversal order used from the roots. -/
theorem C5_level_assignment (stories : List StoryRec) (id : String)
    (hid : id ∈ nodeIds stories)
    (hforest : ∀ j ∈ nodeIds stories,
      (depthToRoot stories ((nodeIds stories).length + 1) j).isSome = true) :
    depthToRoot stories ((nodeIds stories).length + 1) id
        = some (levelOf stories id)
    ∧ (id ∈ rootIds stories → levelOf stories id = 0)
    ∧ (∀ p, parentEdge stories id = some p →
        levelOf stories id = levelOf stories p + 1) := by
  obtain ⟨d, hd⟩ := Option.isSome_iff_exists.mp (hforest id hid)
  have hlev := levelOf_eq_depth stories hid hd
  refine ⟨by rw [hlev]; exact hd, ?_, ?_⟩
  · intro hroot
    have hpe := (mem_rootIds_iff.mp hroot).2
    have h0 : depthToRoot stories ((nodeIds stories).length + 1) id
        = some 0 := by
      unfold depthToRoot
      rw [hpe]
    rw [hd] at h0
    have : d = 0 := by injection h0
    omega
  · intro p hpe
    have hp_mem : p ∈ nodeIds stories := (child_of_parentEdge hpe).2
    obtain ⟨dp, hdp, hdd⟩ : ∃ dp,
        depthToRoot stories (nodeIds stories).length p = some dp
          ∧ d = dp + 1 := by
      unfold depthToRoot at hd
      rw [hpe] at hd
      have hd0 : Option.map (fun x => x + 1)
          (depthToRoot stories (nodeIds stories).length p) = some d := hd
      cases hdp : depthToRoot stories (nodeIds stories).length p with
      | none =>
        rw [hdp] at hd0
        cases hd0
      | some dp =>
        rw [hdp] at hd0
        have hd1 : some (dp + 1) = some d := hd0
        have : dp + 1 = d := by injection hd1
        exact ⟨dp, rfl, by omega⟩
    have hdp' := depthToRoot_mono hdp
      (by omega : (nodeIds stories).length ≤ (nodeIds stories).length + 1)
    have hlevp := levelOf_eq_depth stories hp_mem hdp'
    rw [hlev, hlevp]
    omega

/-! ### Concrete registries for the lineage claims -/

/-- Two stories whose explicit parent ids form a cycle. -/
def cycA : StoryRec :=
  { id := "A", title := "a", chain := [], pending_blocks := [],
    parent_story_id := some "B", parent_block_hash := none }

def cycB : StoryRec :=
  { id := "B", title := "b", chain := [], pending_blocks := [],
    parent_story_id := some "A", parent_block_hash := none }

def regCycle : List StoryRec := [cycA, cycB]

/-- Counterexample for C4 as stated: in a two-story cycle neither
story is treated as a root — the root list is empty — and no warning
value exists anywhere in the resolution; the parent chain from "A"
never reaches a root. -/
theorem C4_counterexample :
    "A" ∈ nodeIds regCycle
    ∧ parentEdge regCycle "A" = some "B"
    ∧ parentEdge regCycle "B" = some "A"
    ∧ depthToRoot regCycle ((nodeIds regCycle).length + 1) "A" = none
    ∧ rootIds regCycle = []
    ∧ "A" ∉ rootIds regCycle := by
  refine ⟨?_, ?_, ?_, ?_, ?_, ?_⟩ <;> decide

/-- Witness for C4 (amended): the cycle story "A" is not a root and
keeps the initial level 0. -/
theorem C4_cycle_not_root_witness :
    "A" ∉ rootIds regCycle ∧ levelOf regCycle "A" = 0 :=
  C4_cycle_not_root regCycle "A" (by decide) (by decide)

/-- A three-story chain: T branches from S branches from R. -/
def linR : StoryRec :=
  { id := "R", title := "r", chain := [], pending_blocks := [],
    parent_story_id := none, parent_block_hash := none }

def linS : StoryRec :=
  { id := "S", title := "s", chain := [], pending_blocks := [],
    parent_story_id := some "R", parent_block_hash := none }

def linT : StoryRec :=
  { id := "T", title := "t", chain := [], pending_blocks := [],
    parent_story_id := some "S", parent_block_hash := none }

def regLine : List StoryRec := [linR, linS, linT]

/-- Witness for C5: in the three-story chain the level of "T" is its
distance from the root and exceeds the level of its parent by one. -/
theorem C5_level_assignment_witness :
    depthToRoot regLine ((nodeIds regLine).length + 1) "T"
        = some (levelOf regLine "T")
    ∧ ("T" ∈ rootIds regLine → levelOf regLine "T" = 0)
    ∧ (∀ p, parentEdge regLine "T" = some p →
        levelOf regLine "T" = levelOf regLine p + 1) :=
  C5_level_assignment regLine "T" (by decide) (by decide)

/-! ### Where hash-index entries come from -/

theorem innerFold_mem {sid : String} :
    ∀ (chain : List SBlock) (m : List (String × String)) (q : String × String),
      q ∈ chain.foldl
        (fun m2 blk =>
          match jsStr blk.hash with
          | some h => mapSet m2 h sid
          | none => m2) m →
      q ∈ m ∨ (q.2 = sid ∧ ∃ b ∈ chain, jsStr b.hash = some q.1) := by
  intro chain
  induction chain with
  | nil =>
    intro m q h
    exact Or.inl h
  | cons b chain ih =>
    intro m q h
    rw [List.foldl_cons] at h
    cases hbh : jsStr b.hash with
    | none =>
      rw [hbh] at h
      rcases ih m q h with h | ⟨h1, b2, hb2, hh2⟩
      · exact Or.inl h
      · exact Or.inr ⟨h1, b2, List.mem_cons_of_mem b hb2, hh2⟩
    | some hh =>
      rw [hbh] at h
      rcases ih _ q h with h | ⟨h1, b2, hb2, hh2⟩
      · rcases mem_mapSet h with h | h
        · exact Or.inl h
        · subst h
          exact Or.inr ⟨rfl, b, List.mem_cons_self b chain, hbh⟩
      · exact Or.inr ⟨h1, b2, List.mem_cons_of_mem b hb2, hh2⟩

theorem buildHashIndex_mem :
    ∀ (sm : List (String × StoryRec)) (q : String × String),
      q ∈ buildHashIndex sm →
      ∃ e ∈ sm, e.1 = q.2 ∧ ∃ b ∈ e.2.chain, jsStr b.hash = some q.1 := by
  suffices hgen : ∀ (l : List (String × StoryRec)) (m : List (String × String))
      (q : String × String),
      q ∈ l.foldl
        (fun m e =>
          e.2.chain.foldl
            (fun m2 blk =>
              match jsStr blk.hash with
              | some h => mapSet m2 h e.1
              | none => m2) m) m →
      q ∈ m ∨ ∃ e ∈ l, e.1 = q.2 ∧ ∃ b ∈ e.2.chain, jsStr b.hash = some q.1 by
    intro sm q h
    rcases hgen sm [] q h with h | h
    · cases h
    · exact h
  intro l
  induction l with
  | nil =>
    intro m q h
    exact Or.inl h
  | cons e l ih =>
    intro m q h
    rw [List.foldl_cons] at h
    rcases ih _ q h with h | ⟨e2, he2, h2⟩
    · rcases innerFold_mem e.2.chain m q h with h | ⟨h1, hb⟩
      · exact Or.inl h
      · exact Or.inr ⟨e, List.mem_cons_self e l, h1.symm, hb⟩
    · exact Or.inr ⟨e2, List.mem_cons_of_mem e he2, h2⟩

theorem buildStoryMap_mem {stories : List StoryRec} {q : String × StoryRec}
    (h : q ∈ buildStoryMap stories) : q.2 ∈ stories := by
  suffices hgen : ∀ (l : List StoryRec) (m : List (String × StoryRec))
      (q : String × StoryRec),
      q ∈ l.foldl
        (fun m story =>
          if story.id ≠ "" then mapSet m story.id story else m) m →
      q ∈ m ∨ q.2 ∈ l by
    rcases hgen stories [] q h with h | h
    · cases h
    · exact h
  intro l
  induction l with
  | nil =>
    intro m q h
    exact Or.inl h
  | cons st l ih =>
    intro m q h
    rw [List.foldl_cons] at h
    by_cases hid : st.id ≠ ""
    · rw [if_pos hid] at h
      rcases ih _ q h with h | h
      · rcases mem_mapSet h with h | h
        · exact Or.inl h
        · subst h
          exact Or.inr (List.mem_cons_self st l)
      · exact Or.inr (List.mem_cons_of_mem st h)
    · rw [if_neg hid] at h
      rcases ih _ q h with h | h
      · exact Or.inl h
      · exact Or.inr (List.mem_cons_of_mem st h)

/-- A successful index lookup names a story of the map (so its id is
truthy), and the hash was carried by a finalized chain block. -/
theorem lookupHash_spec {stories : List StoryRec} {h p : String}
    (hl : lookupHash (hashIndex stories) h = some p) :
    p ∈ nodeIds stories ∧ p ≠ ""
      ∧ ∃ st ∈ stories, ∃ b ∈ st.chain, jsStr b.hash = some h := by
  unfold lookupHash at hl
  cases hfind : (hashIndex stories).find? (fun q => q.1 = h) with
  | none =>
    rw [hfind] at hl
    cases hl
  | some q =>
    rw [hfind] at hl
    have hq2 : q.2 = p := by
      have hl' : some q.2 = some p := hl
      injection hl'
    have hd := List.find?_some hfind
    have hq1 : q.1 = h := of_decide_eq_true hd
    have hqm := List.mem_of_find?_eq_some hfind
    obtain ⟨e, he, he1, b, hb, hbh⟩ := buildHashIndex_mem _ q hqm
    refine ⟨?_, ?_, e.2, buildStoryMap_mem he, b, hb, by rwa [hq1] at hbh⟩
    · rw [nodeIds_eq_storyMap_keys, List.mem_map]
      exact ⟨e, he, by rw [he1, hq2]⟩
    · rw [← hq2, ← he1]
      exact buildStoryMap_keys_ne_empty stories e he

/-- A hash carried by no finalized chain block is absent from the
index (in particular a hash carried only by pending blocks). -/
theorem lookupHash_none {stories : List StoryRec} {h : String}
    (habs : ∀ st ∈ stories, ∀ b ∈ st.chain, jsStr b.hash ≠ some h) :
    lookupHash (hashIndex stories) h = none := by
  unfold lookupHash
  cases hfind : (hashIndex stories).find? (fun q => q.1 = h) with
  | none => rfl
  | some q =>
    exfalso
    have hd := List.find?_some hfind
    have hq1 : q.1 = h := of_decide_eq_true hd
    have hqm := List.mem_of_find?_eq_some hfind
    obtain ⟨e, he, _, b, hb, hbh⟩ := buildHashIndex_mem _ q hqm
    exact habs e.2 (buildStoryMap_mem he) b hb (by rwa [hq1] at hbh)

/-! ## Claim C1: the explicit parent id -/

/-- C1 (amended): the explicit `parent_story_id` is used whenever it
is present (truthy), with no check that it resolves to an existing
story and no check against self-reference; the `parent_block_hash`
lookup runs only when the explicit id is absent.  A story whose
explicit parent id names no story in the map becomes a root without
any fallback, and a story whose explicit parent id is itself becomes
its own child and is not a root. -/
theorem C1_explicit_parent (stories : List StoryRec) (id : String)
    (story : StoryRec) (p : String)
    (hmem : (id, story) ∈ buildStoryMap stories)
    (hp : jsStr story.parent_story_id = some p) :
    resolvedParentId (hashIndex stories) id story = some p
    ∧ (p ∉ nodeIds stories → id ∈ rootIds stories)
    ∧ (p = id → id ∈ childIds stories id ∧ id ∉ rootIds stories) := by
  have hres : resolvedParentId (hashIndex stories) id story = some p := by
    unfold resolvedParentId
    rw [hp]
  have hentry : (id, some p) ∈ nodeEntries stories := by
    have h := nodeEntry_of_storyMap hmem
    rwa [hres] at h
  refine ⟨hres, ?_, ?_⟩
  · intro hnp
    rw [mem_rootIds_iff]
    refine ⟨mem_nodeIds_of_entry hentry, ?_⟩
    unfold parentEdge
    rw [parentIdOf_eq hentry]
    show (if (nodeIds stories).contains p = true then some p else none) = none
    rw [if_neg (by simpa using hnp)]
  · intro hpid
    subst hpid
    have hidm : p ∈ nodeIds stories := mem_nodeIds_of_entry hentry
    refine ⟨mem_childIds_iff.mpr hentry, ?_⟩
    intro hroot
    have hpe := (mem_rootIds_iff.mp hroot).2
    unfold parentEdge at hpe
    rw [parentIdOf_eq hentry] at hpe
    have hpe' : (if (nodeIds stories).contains p = true then some p else none)
        = none := hpe
    rw [if_pos (by simpa using hidm)] at hpe'
    cases hpe'

/-- The counterexample registry for C1: "A" has an explicit parent id
"B" that names no story, and a `parent_block_hash` owned by "C". -/
def c1A : StoryRec :=
  { id := "A", title := "a", chain := [], pending_blocks := [],
    parent_story_id := some "B", parent_block_hash := some "hC" }

def c1C : StoryRec :=
  { id := "C", title := "c",
    chain := [{ hash := some "hC", parent_block_hash := none }],
    pending_blocks := [], parent_story_id := none,
    parent_block_hash := none }

def regC1 : List StoryRec := [c1A, c1C]

/-- Counterexample for C1 as stated: the explicit parent id "B" does
not resolve to a story of the registry, yet resolution uses it
anyway — it does not fall through to the `parent_block_hash` lookup,
which would have produced "C" — and "A" is treated as a root
immediately. -/
theorem C1_counterexample :
    resolvedParentId (hashIndex regC1) "A" c1A = some "B"
    ∧ "B" ∉ nodeIds regC1
    ∧ lookupHash (hashIndex regC1) "hC" = some "C"
    ∧ resolvedParentId (hashIndex regC1) "A" c1A ≠ some "C"
    ∧ "A" ∈ rootIds regC1 := by
  refine ⟨?_, ?_, ?_, ?_, ?_⟩ <;> decide

/-- Witness for C1 (amended) on the counterexample registry: the
explicit id wins outright and, naming no story, makes "A" a root. -/
theorem C1_explicit_parent_witness :
    resolvedParentId (hashIndex regC1) "A" c1A = some "B"
    ∧ ("B" ∉ nodeIds regC1 → "A" ∈ rootIds regC1)
    ∧ ("B" = "A" → "A" ∈ childIds regC1 "A" ∧ "A" ∉ rootIds regC1) :=
  C1_explicit_parent regC1 "A" c1A "B" (by decide) (by decide)

/-! ## Claim C2: the story-level branch hash -/

/-- The chain-scan fallback of the resolution (StoryTree.js lines
146-167): skipped for an empty chain, otherwise the first matching
block wins. -/
def chainScan (idx : List (String × String)) (id : String)
    (story : StoryRec) : Option String :=
  if story.chain.isEmpty then none
  else story.chain.findSome? (chainScanStep idx id)

/-- With no usable explicit parent id, resolution is the hash lookup
followed by the chain scan. -/
theorem resolvedParentId_eq_step2 (idx : List (String × String)) (id : String)
    (story : StoryRec) (h : String)
    (hpsid : jsStr story.parent_story_id = none)
    (hpbh : jsStr story.parent_block_hash = some h) :
    resolvedParentId idx id story =
      (match (match lookupHash idx h with
              | some p => if p ≠ "" ∧ p ≠ id then some p else none
              | none => none) with
       | some p => some p
       | none => chainScan idx id story) := by
  unfold resolvedParentId chainScan
  rw [hpsid, hpbh]

theorem chainScanStep_ne_self {idx : List (String × String)} {id : String}
    {b : SBlock} {r : String} (h : chainScanStep idx id b = some r) : r ≠ id := by
  unfold chainScanStep at h
  cases hbh : jsStr b.parent_block_hash with
  | none => rw [hbh] at h; cases h
  | some hh =>
    rw [hbh] at h
    have h' : (match lookupHash idx hh with
        | some r => if r ≠ "" ∧ r ≠ id then some r else none
        | none => none) = some r := h
    cases hl : lookupHash idx hh with
    | none => rw [hl] at h'; cases h'
    | some r2 =>
      rw [hl] at h'
      have h'' : (if r2 ≠ "" ∧ r2 ≠ id then some r2 else none) = some r := h'
      by_cases hcond : r2 ≠ "" ∧ r2 ≠ id
      · rw [if_pos hcond] at h''
        have : r2 = r := by injection h''
        subst this
        exact hcond.2
      · rw [if_neg hcond] at h''
        cases h''

theorem chainScan_ne_self {idx : List (String × String)} {id : String}
    {story : StoryRec} : chainScan idx id story ≠ some id := by
  unfold chainScan
  by_cases he : story.chain.isEmpty = true
  · rw [if_pos he]
    intro hcon
    cases hcon
  · rw [if_neg he]
    intro hcon
    obtain ⟨b, _, hb⟩ := List.exists_of_findSome?_eq_some hcon
    exact chainScanStep_ne_self hb rfl

/-- C2: with no usable explicit parent id, a story carrying a
`parent_block_hash` resolves to the story owning a finalized block
with that hash, found through the hash index built over every story's
finalized chain; a self-owned hash is discarded (resolution never
returns the story itself), and a hash carried by no finalized block —
for example a hash of a still-pending block — is absent from the index
and contributes no parent, leaving only the chain-scan fallback. -/
theorem C2_block_hash_lookup (stories : List StoryRec) (id : String)
    (story : StoryRec) (h : String)
    (hpsid : jsStr story.parent_story_id = none)
    (hpbh : jsStr story.parent_block_hash = some h) :
    (∀ p, lookupHash (hashIndex stories) h = some p → p ≠ id →
        resolvedParentId (hashIndex stories) id story = some p
          ∧ p ∈ nodeIds stories
          ∧ ∃ st ∈ stories, ∃ b ∈ st.chain, jsStr b.hash = some h)
    ∧ (lookupHash (hashIndex stories) h = none →
        resolvedParentId (hashIndex stories) id story
          = chainScan (hashIndex stories) id story)
    ∧ (lookupHash (hashIndex stories) h = some id →
        resolvedParentId (hashIndex stories) id story
          = chainScan (hashIndex stories) id story)
    ∧ resolvedParentId (hashIndex stories) id story ≠ some id
    ∧ ((∀ st ∈ stories, ∀ b ∈ st.chain, jsStr b.hash ≠ some h) →
        lookupHash (hashIndex stories) h = none) := by
  have heq := resolvedParentId_eq_step2 (hashIndex stories) id story h hpsid hpbh
  refine ⟨?_, ?_, ?_, ?_, lookupHash_none⟩
  · intro p hl hpid
    obtain ⟨hpn, hpe, hst⟩ := lookupHash_spec hl
    refine ⟨?_, hpn, hst⟩
    rw [heq, hl]
    show (match (if p ≠ "" ∧ p ≠ id then some p else none : Option String) with
          | some p => some p
          | none => chainScan (hashIndex stories) id story) = some p
    rw [if_pos ⟨hpe, hpid⟩]
  · intro hl
    rw [heq, hl]
  · intro hl
    rw [heq, hl]
    show (match (if id ≠ "" ∧ id ≠ id then some id else none : Option String)
          with
          | some p => some p
          | none => chainScan (hashIndex stories) id story)
        = chainScan (hashIndex stories) id story
    rw [if_neg (by simp)]
  · rw [heq]
    cases hl : lookupHash (hashIndex stories) h with
    | none =>
      show chainScan (hashIndex stories) id story ≠ some id
      exact chainScan_ne_self
    | some p =>
      by_cases hcond : p ≠ "" ∧ p ≠ id
      · show (match (if p ≠ "" ∧ p ≠ id then some p else none : Option String)
            with
            | some p => some p
            | none => chainScan (hashIndex stories) id story) ≠ some id
        rw [if_pos hcond]
        intro hcon
        have : p = id := by injection hcon
        exact hcond.2 this
      · show (match (if p ≠ "" ∧ p ≠ id then some p else none : Option String)
            with
            | some p => some p
            | none => chainScan (hashIndex stories) id story) ≠ some id
        rw [if_neg hcond]
        exact chainScan_ne_self

/-- The witness registry for C2: "B" carries the block hash "h1" owned
by "A", while "h2" belongs only to a pending block of "A". -/
def c2A : StoryRec :=
  { id := "A", title := "a",
    chain := [{ hash := some "h1", parent_block_hash := none }],
    pending_blocks := [{ hash := some "h2", parent_block_hash := none }],
    parent_story_id := none, parent_block_hash := none }

def c2B : StoryRec :=
  { id := "B", title := "b", chain := [], pending_blocks := [],
    parent_story_id := none, parent_block_hash := some "h1" }

/-- A story whose branch hash "h2" exists only as a pending block of
"A". -/
def c2C : StoryRec :=
  { id := "C", title := "c", chain := [], pending_blocks := [],
    parent_story_id := none, parent_block_hash := some "h2" }

def regC2 : List StoryRec := [c2A, c2B, c2C]

/-- Witness for C2: "B" resolves to "A" through the hash lookup, while
"C", whose branch hash exists only among pending blocks, finds nothing
in the index and falls back to the (empty) chain scan. -/
theorem C2_block_hash_lookup_witness :
    (resolvedParentId (hashIndex regC2) "B" c2B = some "A"
      ∧ "A" ∈ nodeIds regC2
      ∧ ∃ st ∈ regC2, ∃ b ∈ st.chain, jsStr b.hash = some "h1")
    ∧ lookupHash (hashIndex regC2) "h2" = none
    ∧ resolvedParentId (hashIndex regC2) "C" c2C
        = chainScan (hashIndex regC2) "C" c2C := by
  have hc := C2_block_hash_lookup regC2 "C" c2C "h2" (by decide) (by decide)
  have h2none : lookupHash (hashIndex regC2) "h2" = none :=
    hc.2.2.2.2 (by decide)
  refine ⟨?_, h2none, hc.2.1 h2none⟩
  exact (C2_block_hash_lookup regC2 "B" c2B "h1" (by decide) (by decide)).1
    "A" (by decide) (by decide)

/-! ## Claim C3: the chain scan -/

/-- A `findSome?` result is the image of the first element on which
the function fires, all earlier elements yielding nothing. -/
theorem findSome?_first_match {α β : Type} (f : α → Option β) :
    ∀ (l : List α) (r : β),
      l.findSome? f = some r ↔
        ∃ l1 a l2, l = l1 ++ a :: l2 ∧ f a = some r
          ∧ ∀ b ∈ l1, f b = none := by
  intro l
  induction l with
  | nil =>
    intro r
    constructor
    · intro h
      cases h
    · rintro ⟨l1, a, l2, heq, _, _⟩
      cases l1 <;> cases heq
  | cons x xs ih =>
    intro r
    rw [List.findSome?_cons]
    cases hfx : f x with
    | some b =>
      constructor
      · intro h
        have hbr : b = r := by injection h
        exact ⟨[], x, xs, by simp, by rw [hfx, hbr], by intro b2 hb2; cases hb2⟩
      · rintro ⟨l1, a, l2, heq, hfa, hl1⟩
        cases l1 with
        | nil =>
          simp only [List.nil_append, List.cons.injEq] at heq
          obtain ⟨rfl, rfl⟩ := heq
          rw [hfx] at hfa
          exact hfa
        | cons y l1 =>
          simp only [List.cons_append, List.cons.injEq] at heq
          obtain ⟨rfl, _⟩ := heq
          have := hl1 x (List.mem_cons_self x l1)
          rw [hfx] at this
          cases this
    | none =>
      show List.findSome? f xs = some r ↔ _
      rw [ih r]
      constructor
      · rintro ⟨l1, a, l2, heq, hfa, hl1⟩
        refine ⟨x :: l1, a, l2, by rw [heq]; rfl, hfa, ?_⟩
        intro b2 hb2
        rcases List.mem_cons.mp hb2 with rfl | hb2
        · exact hfx
        · exact hl1 b2 hb2
      · rintro ⟨l1, a, l2, heq, hfa, hl1⟩
        cases l1 with
        | nil =>
          simp only [List.nil_append, List.cons.injEq] at heq
          obtain ⟨rfl, rfl⟩ := heq
          rw [hfx] at hfa
          cases hfa
        | cons y l1 =>
          simp only [List.cons_append, List.cons.injEq] at heq
          obtain ⟨rfl, rfl⟩ := heq
          exact ⟨l1, a, l2, rfl, hfa, fun b2 hb2 =>
            hl1 b2 (List.mem_cons_of_mem x hb2)⟩

/-- C3: when neither the explicit parent id nor the story-level branch
hash yields a parent, resolution scans the own finalized chain of the story
in order and takes the owning story of the first block whose
`parent_block_hash` resolves to a different story; blocks that resolve
to the story itself or to nothing are skipped, and if no block matches
the story is a root. -/
theorem C3_chain_scan (stories : List StoryRec) (id : String)
    (story : StoryRec)
    (hmem : (id, story) ∈ buildStoryMap stories)
    (hpsid : jsStr story.parent_story_id = none)
    (hstep2 : jsStr story.parent_block_hash = none
      ∨ ∃ h, jsStr story.parent_block_hash = some h
          ∧ (lookupHash (hashIndex stories) h = none
             ∨ lookupHash (hashIndex stories) h = some id)) :
    resolvedParentId (hashIndex stories) id story
        = chainScan (hashIndex stories) id story
    ∧ (∀ r, chainScan (hashIndex stories) id story = some r ↔
        ∃ l1 b l2, story.chain = l1 ++ b :: l2
          ∧ chainScanStep (hashIndex stories) id b = some r
          ∧ ∀ b2 ∈ l1, chainScanStep (hashIndex stories) id b2 = none)
    ∧ (resolvedParentId (hashIndex stories) id story = none →
        id ∈ rootIds stories) := by
  refine ⟨?_, ?_, ?_⟩
  · rcases hstep2 with hpbh | ⟨h, hpbh, hlk⟩
    · unfold resolvedParentId chainScan
      rw [hpsid, hpbh]
    · have heq := resolvedParentId_eq_step2 (hashIndex stories) id story h
        hpsid hpbh
      rcases hlk with hl | hl
      · rw [heq, hl]
      · rw [heq, hl]
        show (match (if id ≠ "" ∧ id ≠ id then some id else none : Option String)
              with
              | some p => some p
              | none => chainScan (hashIndex stories) id story)
            = chainScan (hashIndex stories) id story
        rw [if_neg (by simp)]
  · intro r
    unfold chainScan
    by_cases he : story.chain.isEmpty = true
    · rw [if_pos he]
      have hce : story.chain = [] := List.isEmpty_iff.mp he
      rw [hce]
      constructor
      · intro h
        cases h
      · rintro ⟨l1, b, l2, heq, _, _⟩
        cases l1 <;> cases heq
    · rw [if_neg he]
      exact findSome?_first_match _ story.chain r
  · intro hnone
    have hentry : (id, none) ∈ nodeEntries stories := by
      have h := nodeEntry_of_storyMap hmem
      rwa [hnone] at h
    rw [mem_rootIds_iff]
    refine ⟨mem_nodeIds_of_entry hentry, ?_⟩
    unfold parentEdge
    rw [parentIdOf_eq hentry]

/-- The witness registry for C3: "D" has no story-level branch fields;
its first chain block carries an unresolvable branch hash, its second
one branches from a block of "A", its third one from a block of
"E". -/
def c3A : StoryRec :=
  { id := "A", title := "a",
    chain := [{ hash := some "h1", parent_block_hash := none }],
    pending_blocks := [], parent_story_id := none, parent_block_hash := none }

def c3E : StoryRec :=
  { id := "E", title := "e",
    chain := [{ hash := some "h2", parent_block_hash := none }],
    pending_blocks := [], parent_story_id := none, parent_block_hash := none }

def c3D : StoryRec :=
  { id := "D", title := "d",
    chain := [{ hash := some "d1", parent_block_hash := some "hX" },
              { hash := some "d2", parent_block_hash := some "h1" },
              { hash := some "d3", parent_block_hash := some "h2" }],
    pending_blocks := [], parent_story_id := none, parent_block_hash := none }

def regC3 : List StoryRec := [c3A, c3E, c3D]

/-- Witness for C3: the first resolvable cross-story block reference
of "D" wins — the unresolvable first block is skipped and "A" (block
two), not "E" (block three), becomes the parent. -/
theorem C3_chain_scan_witness :
    resolvedParentId (hashIndex regC3) "D" c3D = some "A"
    ∧ chainScanStep (hashIndex regC3) "D"
        { hash := some "d1", parent_block_hash := some "hX" } = none
    ∧ chainScanStep (hashIndex regC3) "D"
        { hash := some "d3", parent_block_hash := some "h2" } = some "E" := by
  have h := C3_chain_scan regC3 "D" c3D (by decide) (by decide)
    (Or.inl (by decide))
  refine ⟨?_, by decide, by decide⟩
  rw [h.1]
  decide
